import Mathlib

/-
Verification of the tablet storage engine (Bigtable-style LSM prototype).

The Go sources are shallowly embedded as executable Lean definitions:

  - pkg/tablet/model.go      : CellVersion, Column, Row, RowMutation,
                               Column.Insert, Row.Set/Apply/Get
  - pkg/tablet/memtable.go   : MemTable (btree of rows, SizeBytes), Apply, Get
  - the sstable file         : MemTable.Flush, ReadSSTable
  - the commitlog file       : CommitLog.Append / Recover (gob WAL)
  - the compaction file      : Compact, mergeRows
  - the split file           : Tablet.Split, rowToMutation
  - pkg/tablet/tablet.go     : Tablet, NewTablet, Mutate, Read, InRange

Modelling conventions:
  - Go strings are Lean Strings; Go byte slices are lists of Nat.
  - Go int64 timestamps are Lean Int (no claim depends on overflow).
  - time.Now().UnixNano() is an explicit clock argument threaded to the
    operations that call it.
  - Go maps (Row.Columns, the compaction accumulator) are association
    lists in insertion order; map iteration is in list order.  All merge
    and count results proved below are independent of that order for the
    well-formed states in which the Go maps arise (keys distinct).
  - the gob WAL codec is an external library; it is modelled by an
    explicit self-delimiting token codec with the same interface
    (encode one record, decode records from offset 0 until clean EOF).
  - sstable files are modelled by their decoded row sequence (the JSON
    codec is external).
  - file system failures are explicit oracle arguments; the functions
    return both the outcome and the resulting state.
  - sort.Slice promises only a reordering of the slice that is sorted
    by the comparator; it is not documented stable, so the order among
    comparator-equal elements is unspecified.  The version re-sort of
    mergeRows is therefore an explicit function argument of the
    compaction model, constrained to exactly that contract
    (validResort); compaction facts are proved for every function
    satisfying it, and an executable instance (sortVersionsDesc) is
    used to run the model on concrete inputs.
-/

namespace BigTable

/-- Byte strings (Go byte slices) as lists of byte values. -/
abbrev Bytes := List Nat

/-- Lexicographic order on byte lists: the comparison Go performs on
strings (byte-wise, shorter prefix first). -/
def ltBytes : List Nat → List Nat → Bool
  | [], [] => false
  | [], _ :: _ => true
  | _ :: _, [] => false
  | a :: as, b :: bs => if a < b then true else if b < a then false else ltBytes as bs

/-- Byte content of a Go string (character codes). -/
def strBytes (s : String) : List Nat := s.data.map Char.toNat

/-- Go string comparison a less-than b: lexicographic byte order. -/
def keyLt (a b : String) : Bool := ltBytes (strBytes a) (strBytes b)

instance {ε α : Type} [DecidableEq ε] [DecidableEq α] : DecidableEq (Except ε α)
  | .ok a, .ok b =>
    if h : a = b then .isTrue (by rw [h]) else .isFalse (fun hh => h (Except.ok.inj hh))
  | .ok _, .error _ => .isFalse (fun hh => Except.noConfusion hh)
  | .error _, .ok _ => .isFalse (fun hh => Except.noConfusion hh)
  | .error e, .error f =>
    if h : e = f then .isTrue (by rw [h]) else .isFalse (fun hh => h (Except.error.inj hh))

/-- CellVersion from model.go: a timestamped value. -/
structure CellVersion where
  timestamp : Int
  value : Bytes
deriving DecidableEq

/-- Column from model.go: a family, qualifier and version list
(kept sorted by timestamp descending by Insert). -/
structure Column where
  family : String
  qualifier : String
  versions : List CellVersion
deriving DecidableEq

/-- Composite map key used by Row: family + ":" + qualifier. -/
def colKey (family qualifier : String) : String := family ++ ":" ++ qualifier

/-- NewColumn from model.go. -/
def Column.new (family qualifier : String) : Column := ⟨family, qualifier, []⟩

/-- Timestamp stamping rule of Column.Insert: a zero timestamp is
replaced by the current wall clock (the explicit clock argument). -/
def stampTs (now ts : Int) : Int := if ts = 0 then now else ts

/-- Insertion step of Column.Insert: the new version is placed at the
first index whose timestamp is less than or equal to the new one.  This
is the splice at idx = sort.Search(len, versions[i].Timestamp <= ts);
on the descending-sorted lists maintained by Insert the binary search
returns exactly this first satisfying index. -/
def insertVersion (vs : List CellVersion) (nv : CellVersion) : List CellVersion :=
  match vs with
  | [] => [nv]
  | v :: rest => if v.timestamp ≤ nv.timestamp then nv :: v :: rest
                 else v :: insertVersion rest nv

/-- Column.Insert from model.go (clock passed explicitly). -/
def Column.insert (c : Column) (now ts : Int) (value : Bytes) : Column :=
  { c with versions := insertVersion c.versions ⟨stampTs now ts, value⟩ }

/-- Column.GetLatest from model.go: head of the version list. -/
def Column.getLatest (c : Column) : Option CellVersion := c.versions.head?

/-- MutationType from model.go. -/
inductive MutationType where
  | set
  | delete
deriving DecidableEq

/-- MutationOperation from model.go. -/
structure MutationOperation where
  type : MutationType
  family : String
  qualifier : String
  timestamp : Int
  value : Bytes
deriving DecidableEq

/-- RowMutation from model.go. -/
structure RowMutation where
  rowKey : String
  ops : List MutationOperation
deriving DecidableEq

/-- Row from model.go: key plus columns map, modelled as an association
list keyed by colKey in insertion order. -/
structure Row where
  key : String
  columns : List (String × Column)
deriving DecidableEq

/-- NewRow from model.go. -/
def Row.new (key : String) : Row := ⟨key, []⟩

/-- Lookup in the columns map. -/
def lookupCol (cols : List (String × Column)) (ck : String) : Option Column :=
  match cols with
  | [] => none
  | (k, c) :: rest => if k = ck then some c else lookupCol rest ck

/-- Row.setInternal from model.go: find or create the (family,
qualifier) column, then Column.Insert.  A missing column is created and
added to the map (appended; Go map insertion). -/
def insertIntoCols (cols : List (String × Column)) (family qualifier : String)
    (now ts : Int) (v : Bytes) : List (String × Column) :=
  match cols with
  | [] => [(colKey family qualifier, (Column.new family qualifier).insert now ts v)]
  | (k, c) :: rest =>
    if k = colKey family qualifier then (k, c.insert now ts v) :: rest
    else (k, c) :: insertIntoCols rest family qualifier now ts v

/-- Row.setInternal from model.go. -/
def Row.setInternal (r : Row) (family qualifier : String) (ts : Int) (v : Bytes)
    (now : Int) : Row :=
  { r with columns := insertIntoCols r.columns family qualifier now ts v }

/-- Row.deleteInternal from model.go: remove the column entirely. -/
def Row.deleteInternal (r : Row) (family qualifier : String) : Row :=
  { r with columns := r.columns.filter (fun p => p.1 ≠ colKey family qualifier) }

/-- One step of the operation loop in Row.Apply. -/
def Row.applyOp (r : Row) (op : MutationOperation) (now : Int) : Row :=
  match op.type with
  | .set => r.setInternal op.family op.qualifier op.timestamp op.value now
  | .delete => r.deleteInternal op.family op.qualifier

/-- Operation loop of Row.Apply (executes each op in order). -/
def Row.applyOps (r : Row) (ops : List MutationOperation) (now : Int) : Row :=
  ops.foldl (fun r op => r.applyOp op now) r

/-- Row.Apply from model.go: fails when the mutation row key does not
match the row key, otherwise executes all operations in order. -/
def Row.apply (r : Row) (m : RowMutation) (now : Int) : Except String Row :=
  if r.key = m.rowKey then .ok (r.applyOps m.ops now) else .error "key mismatch"

/-- Row.Get from model.go: latest version of the addressed column. -/
def Row.get (r : Row) (family qualifier : String) : Option CellVersion :=
  match lookupCol r.columns (colKey family qualifier) with
  | none => none
  | some c => c.getLatest

/-- MemTable from memtable.go: the btree is modelled by its in-order
row sequence (sorted by key, distinct keys); SizeBytes is the tracked
size estimate. -/
structure MemTable where
  rows : List Row
  sizeBytes : Int
deriving DecidableEq

/-- NewMemTable from memtable.go. -/
def MemTable.empty : MemTable := ⟨[], 0⟩

/-- Btree Get: the row with the given key, if present. -/
def findRow (rows : List Row) (key : String) : Option Row :=
  match rows with
  | [] => none
  | r :: rest => if r.key = key then some r else findRow rest key

/-- estimateMutationSize from memtable.go. -/
def estimateMutationSize (m : RowMutation) : Int :=
  m.ops.foldl (fun sz op =>
    sz + (op.family.length + op.qualifier.length + op.value.length + 8 : Int)) 0

/-- Row update step of MemTable.Apply on the in-order row sequence:
the row with the mutation's key is mutated in place (btree Get found
it); a missing row is created as NewRow(key) and inserted at its sorted
position (btree ReplaceOrInsert), then mutated.  Row.Apply's key check
is vacuous here because the target row's key equals the mutation's. -/
def applyToRows (rows : List Row) (m : RowMutation) (now : Int) : List Row :=
  match rows with
  | [] => [(Row.new m.rowKey).applyOps m.ops now]
  | r :: rest =>
    if r.key = m.rowKey then r.applyOps m.ops now :: rest
    else if keyLt m.rowKey r.key then (Row.new m.rowKey).applyOps m.ops now :: r :: rest
    else r :: applyToRows rest m now

/-- MemTable.Apply from memtable.go: find or create the row, bump
SizeBytes (row key length only for a new row, plus the mutation size
estimate), apply the mutation to the row. -/
def MemTable.apply (mt : MemTable) (m : RowMutation) (now : Int) : MemTable :=
  let newKeyBytes : Int := if (findRow mt.rows m.rowKey).isSome then 0 else m.rowKey.length
  { rows := applyToRows mt.rows m now
    sizeBytes := mt.sizeBytes + newKeyBytes + estimateMutationSize m }

/-- MemTable.Get from memtable.go. -/
def MemTable.get (mt : MemTable) (key : String) : Option Row := findRow mt.rows key

/-- SSTable file content: the decoded row records in file order (the
JSON row codec is external to the repository). -/
structure SSTable where
  rows : List Row
deriving DecidableEq

/-- Record-writing loop of MemTable.Flush: writes rows in order until
done or until the I/O oracle fails a write.  The oracle value some n
makes the write of record n+1 fail (counting from 1); none means every
write succeeds.  Returns the records that reached the file and whether
the iteration completed. -/
def writeRows (rows : List Row) (fuel : Option Nat) : List Row × Bool :=
  match rows, fuel with
  | [], _ => ([], true)
  | r :: rest, none =>
    let (w, ok) := writeRows rest none
    (r :: w, ok)
  | _ :: _, some 0 => ([], false)
  | r :: rest, some (n + 1) =>
    let (w, ok) := writeRows rest (some n)
    (r :: w, ok)

/-- Result of MemTable.Flush: whether the call returned metadata or an
error, the memtable afterwards, and the content of the output file left
on disk (some content: the file exists; the source never removes it). -/
structure FlushResult where
  ok : Bool
  mem : MemTable
  file : Option (List Row)
deriving DecidableEq

/-- MemTable.Flush from the sstable file: iterate the btree in key
order encoding each row; on success clear the tree (SizeBytes is left
untouched by the source); on a write error return the error with the
memtable unchanged, leaving the partially written file on disk. -/
def MemTable.flush (mt : MemTable) (fuel : Option Nat) : FlushResult :=
  let (written, ok) := writeRows mt.rows fuel
  if ok then ⟨true, { mt with rows := [] }, some written⟩
  else ⟨false, mt, some written⟩

/-- WAL codec, modelling the gob stream: every record is encoded as a
self-delimiting token sequence.  String: length then character codes. -/
def encString (s : String) : List Nat := s.length :: s.data.map Char.toNat

/-- WAL codec: integer as sign tag then magnitude. -/
def encInt (i : Int) : List Nat := if i < 0 then [1, i.natAbs] else [0, i.natAbs]

/-- WAL codec: byte string as length then bytes. -/
def encBytes (b : Bytes) : List Nat := b.length :: b

/-- WAL codec: tag for the mutation type. -/
def MutationType.code : MutationType → Nat
  | .set => 0
  | .delete => 1

/-- WAL codec: one mutation operation. -/
def encOp (op : MutationOperation) : List Nat :=
  op.type.code :: (encString op.family ++ encString op.qualifier ++
    encInt op.timestamp ++ encBytes op.value)

/-- WAL codec: one RowMutation record (rowKey, then counted ops). -/
def encodeMutation (m : RowMutation) : List Nat :=
  encString m.rowKey ++ m.ops.length :: (m.ops.map encOp).flatten

/-- WAL decoder for strings. -/
def decString (l : List Nat) : Option (String × List Nat) :=
  match l with
  | [] => none
  | n :: rest =>
    if n ≤ rest.length then some (⟨(rest.take n).map Char.ofNat⟩, rest.drop n)
    else none

/-- WAL decoder for integers. -/
def decInt (l : List Nat) : Option (Int × List Nat) :=
  match l with
  | 0 :: m :: rest => some ((m : Int), rest)
  | 1 :: m :: rest => some (-(m : Int), rest)
  | _ => none

/-- WAL decoder for byte strings. -/
def decBytes (l : List Nat) : Option (Bytes × List Nat) :=
  match l with
  | [] => none
  | n :: rest => if n ≤ rest.length then some (rest.take n, rest.drop n) else none

/-- WAL decoder for one operation. -/
def decOp (l : List Nat) : Option (MutationOperation × List Nat) :=
  match l with
  | [] => none
  | tag :: rest =>
    match (if tag = 0 then some MutationType.set
           else if tag = 1 then some MutationType.delete else none) with
    | none => none
    | some ty =>
      match decString rest with
      | none => none
      | some (fam, r1) =>
        match decString r1 with
        | none => none
        | some (qual, r2) =>
          match decInt r2 with
          | none => none
          | some (ts, r3) =>
            match decBytes r3 with
            | none => none
            | some (v, r4) => some (⟨ty, fam, qual, ts, v⟩, r4)

/-- WAL decoder for a counted list of operations. -/
def decOps (count : Nat) (l : List Nat) : Option (List MutationOperation × List Nat) :=
  match count with
  | 0 => some ([], l)
  | n + 1 =>
    match decOp l with
    | none => none
    | some (op, rest) =>
      match decOps n rest with
      | none => none
      | some (ops, rest2) => some (op :: ops, rest2)

/-- WAL decoder for one RowMutation record. -/
def decodeMutation (l : List Nat) : Option (RowMutation × List Nat) :=
  match decString l with
  | none => none
  | some (key, r1) =>
    match r1 with
    | [] => none
    | n :: r2 =>
      match decOps n r2 with
      | none => none
      | some (ops, rest) => some (⟨key, ops⟩, rest)

/-- Write outcome oracle for CommitLog.Append: ok, or a write or sync
error with the given code after the given number of tokens reached the
file. -/
inductive WalWrite where
  | ok
  | fail (code : Nat) (written : Nat)
deriving DecidableEq

/-- CommitLog.Append from the commitlog file: encode the mutation,
write it to the end of the log, fsync; the error of a failed write or
sync is returned and the memory image of the file keeps whatever prefix
was written. -/
def CommitLog.append (wal : List Nat) (m : RowMutation) (w : WalWrite) :
    Except Nat Unit × List Nat :=
  match w with
  | .ok => (.ok (), wal ++ encodeMutation m)
  | .fail e k => (.error e, wal ++ (encodeMutation m).take k)

/-- Successful appends of a whole sequence of mutations, in order. -/
def appendAll (wal : List Nat) (ms : List RowMutation) : List Nat :=
  ms.foldl (fun l m => (CommitLog.append l m .ok).2) wal

/-- Concatenation of the encodings of a mutation sequence. -/
def encodeAll (ms : List RowMutation) : List Nat := (ms.map encodeMutation).flatten

/-- Decode loop of CommitLog.Recover: records from offset 0 until clean
EOF; none models CorruptLog.  The fuel bounds the number of records,
and is instantiated with the file length (every record consumes at
least one token). -/
def recoverAux : Nat → List Nat → Option (List RowMutation)
  | _, [] => some []
  | 0, _ :: _ => none
  | f + 1, x :: xs =>
    match decodeMutation (x :: xs) with
    | none => none
    | some (m, rest) =>
      match recoverAux f rest with
      | none => none
      | some ms => some (m :: ms)

/-- CommitLog.Recover from the commitlog file. -/
def CommitLog.recover (wal : List Nat) : Option (List RowMutation) :=
  recoverAux wal.length wal

/-- Error kinds surfaced by Tablet.Mutate and Tablet.Read; walFailed
wraps the underlying append error (fmt.Errorf with a wrapped cause). -/
inductive TabletErr where
  | outOfRange (key startKey endKey : String)
  | walFailed (code : Nat)
deriving DecidableEq

/-- Tablet from tablet.go: range, memtable, sstables (oldest first, as
registered), and the WAL file content. -/
structure Tablet where
  startKey : String
  endKey : String
  mem : MemTable
  sstables : List SSTable
  wal : List Nat
deriving DecidableEq

/-- Tablet.InRange from tablet.go: key at least startKey and, unless
endKey is empty (positive infinity), strictly below endKey. -/
def Tablet.inRange (t : Tablet) (key : String) : Bool :=
  !keyLt key t.startKey && (t.endKey == "" || keyLt key t.endKey)

/-- Tablet.Mutate from tablet.go: range check, then WAL append, then
memtable apply.  Returns the call result and the tablet afterwards. -/
def Tablet.mutate (t : Tablet) (m : RowMutation) (now : Int) (w : WalWrite) :
    Except TabletErr Unit × Tablet :=
  if t.inRange m.rowKey then
    match CommitLog.append t.wal m w with
    | (.error e, wal2) => (.error (.walFailed e), { t with wal := wal2 })
    | (.ok _, wal2) => (.ok (), { t with wal := wal2, mem := t.mem.apply m now })
  else (.error (.outOfRange m.rowKey t.startKey t.endKey), t)

/-- Candidate of one sstable in Tablet.Read: scan the file for the
first row with the key (break afterwards), then Row.Get. -/
def tableCand (s : SSTable) (key family qualifier : String) : Option CellVersion :=
  match s.rows.find? (fun r => r.key == key) with
  | some r => r.get family qualifier
  | none => none

/-- Candidate list collected by Tablet.Read: the memtable candidate, if
any, then one candidate per sstable in registration order. -/
def Tablet.readCandidates (t : Tablet) (key family qualifier : String) :
    List CellVersion :=
  let memC : List CellVersion :=
    match t.mem.get key with
    | some r =>
      match r.get family qualifier with
      | some v => [v]
      | none => []
    | none => []
  t.sstables.foldl (fun acc s =>
    match tableCand s key family qualifier with
    | some v => acc ++ [v]
    | none => acc) memC

/-- Best-candidate scan of Tablet.Read: keep the current best, replace
it only on a strictly greater timestamp. -/
def pickBest (cands : List CellVersion) : Option CellVersion :=
  cands.foldl (fun best c =>
    match best with
    | none => some c
    | some b => if b.timestamp < c.timestamp then some c else some b) none

/-- Tablet.Read from tablet.go (sstable reads succeed; I/O failure of
ReadSSTable is outside the claims settled here). -/
def Tablet.read (t : Tablet) (key family qualifier : String) :
    Except TabletErr (Option CellVersion) :=
  if t.inRange key then .ok (pickBest (t.readCandidates key family qualifier))
  else .error (.outOfRange key t.startKey t.endKey)

/-- NewTablet on a fresh directory: empty WAL, no sstables, empty
memtable (recovery of an empty log is trivial). -/
def Tablet.new (startKey endKey : String) : Tablet :=
  ⟨startKey, endKey, MemTable.empty, [], []⟩

/-- NewTablet on an existing directory (tablet.go): register the given
sstables, recover the WAL and replay every recovered mutation into the
fresh memtable; a recovery error aborts the open. -/
def Tablet.openDir (startKey endKey : String) (wal : List Nat)
    (ssts : List SSTable) (now : Int) : Option Tablet :=
  match CommitLog.recover wal with
  | none => none
  | some ms =>
    some ⟨startKey, endKey, ms.foldl (fun mt m => mt.apply m now) MemTable.empty,
      ssts, wal⟩

/-- One descending re-sort sort.Slice may produce: insertion sort by
timestamp descending, placing a version before the equal-timestamp run
(first-come-first among equal timestamps).  This executable instance
of the sort.Slice contract runs the model on concrete inputs; no
compaction theorem below depends on its equal-timestamp order. -/
def sortVersionsDesc (vs : List CellVersion) : List CellVersion :=
  vs.foldr (fun v acc => insertVersion acc v) []

/-- Per-column step of mergeRows: a column absent from the accumulator
row is adopted; a present one gets the concatenated version sequence,
re-sorted by the resort argument (the sort.Slice call of the source,
whose comparator is versions[i].Timestamp > versions[j].Timestamp and
whose order among equal timestamps is unspecified). -/
def mergeOneCol (resort : List CellVersion → List CellVersion)
    (cols : List (String × Column)) (p : String × Column) :
    List (String × Column) :=
  match cols with
  | [] => [p]
  | (k, c) :: rest =>
    if k = p.1 then
      (k, { c with versions := resort (c.versions ++ p.2.versions) }) :: rest
    else (k, c) :: mergeOneCol resort rest p

/-- mergeRows from the compaction file: merge source into dest, column
by column. -/
def mergeRows (resort : List CellVersion → List CellVersion)
    (dest source : Row) : Row :=
  { dest with columns := source.columns.foldl (mergeOneCol resort) dest.columns }

/-- Accumulator step of Compact: a new key is adopted, a known key is
merged in place.  The accumulator map is an association list in first
insertion order. -/
def accumRow (resort : List CellVersion → List CellVersion)
    (acc : List Row) (r : Row) : List Row :=
  match acc with
  | [] => [r]
  | x :: rest =>
    if x.key = r.key then mergeRows resort x r :: rest else x :: accumRow resort rest r

/-- Key-ascending insertion used to model the final key sort of Compact
and the row sort of Split (sort.Slice with a key-less-than comparator;
ties cannot arise in Compact because accumulator keys are distinct, and
no settled property depends on the tie order in Split). -/
def insertRowByKey (r : Row) (rows : List Row) : List Row :=
  match rows with
  | [] => [r]
  | x :: rest => if keyLt r.key x.key then r :: x :: rest else x :: insertRowByKey r rest

/-- Row sort by key ascending. -/
def sortRowsByKey (rows : List Row) : List Row := rows.foldr insertRowByKey []

/-- Compact from the compaction file: load all rows of every input in
order, accumulate by key, then write the merged rows in ascending key
order to the output file.  The resort argument is the version re-sort
of mergeRows. -/
def compact (resort : List CellVersion → List CellVersion)
    (inputs : List SSTable) : SSTable :=
  ⟨sortRowsByKey (inputs.foldl (fun acc s => s.rows.foldl (accumRow resort) acc) [])⟩

/-- rowToMutation from the split file: one Set per version of every
column of the row, columns in map order, versions in stored order. -/
def rowToMutation (r : Row) : RowMutation :=
  ⟨r.key, (r.columns.map (fun p =>
    p.2.versions.map (fun ver =>
      MutationOperation.mk .set p.2.family p.2.qualifier ver.timestamp ver.value))).flatten⟩

/-- Row records of a sstable list, in file order. -/
def rowsOfTables (ts : List SSTable) : List Row :=
  ts.foldr (fun s acc => s.rows ++ acc) []

/-- Every row record a split reads after its pre-split flush: the rows
of the existing sstables followed by the flushed memtable rows. -/
def Tablet.allRows (t : Tablet) : List Row := rowsOfTables t.sstables ++ t.mem.rows

/-- Fallback row for the median index (the index is in bounds whenever
it is used). -/
def defaultRow : Row := ⟨"", []⟩

/-- Median split key chosen by Split: key of the middle record of the
key-sorted record list. -/
def Tablet.splitKey (t : Tablet) : String :=
  ((sortRowsByKey t.allRows).getD (t.allRows.length / 2) defaultRow).key

/-- Error kinds of Tablet.Split. -/
inductive SplitErr where
  | belowThreshold
  | notEnoughRows
deriving DecidableEq

/-- Child update of the partition loop: apply the reconstructed
mutation through Tablet.Mutate (child WAL write succeeds), discarding
the result exactly as the source does. -/
def childMutate (c : Tablet) (m : RowMutation) (now : Int) : Tablet :=
  (c.mutate m now .ok).2

/-- Tablet.Split from the split file: threshold check on the memtable
size estimate, pre-split flush into a new sstable, record-count check,
median split key, two fresh child tablets, partition of the rows by key
via each child's Mutate (I/O of the flush and the children succeeds;
a flush failure aborts the split with the tablet intact). -/
def Tablet.split (t : Tablet) (thresholdBytes : Int) (now : Int) :
    Except SplitErr (Tablet × Tablet) :=
  if t.mem.sizeBytes < thresholdBytes then .error .belowThreshold
  else
    let fr := t.mem.flush none
    let t2 : Tablet :=
      { t with mem := fr.mem, sstables := t.sstables ++ [⟨fr.file.getD []⟩] }
    let all := rowsOfTables t2.sstables
    if all.length < 2 then .error .notEnoughRows
    else
      let sorted := sortRowsByKey all
      let sk := (sorted.getD (all.length / 2) defaultRow).key
      let lr := sorted.foldl (fun (lr : Tablet × Tablet) row =>
        if keyLt row.key sk then (childMutate lr.1 (rowToMutation row) now, lr.2)
        else (lr.1, childMutate lr.2 (rowToMutation row) now))
        (Tablet.new t.startKey sk, Tablet.new sk t.endKey)
      .ok lr

/-
Specification-side vocabulary: the notions the claims quantify over,
written from the specification's words, to be compared with the
source-side functions above.
-/

/-- Version list sorted by timestamp descending (the Column invariant:
versions[i].timestamp is at least versions[i+1].timestamp). -/
def sortedDesc (vs : List CellVersion) : Prop :=
  vs.Pairwise (fun a b => b.timestamp ≤ a.timestamp)

instance (vs : List CellVersion) : Decidable (sortedDesc vs) := by
  unfold sortedDesc; infer_instance

/-- The contract of the sort.Slice call of mergeRows: the result is a
timestamp-descending reordering of the input slice.  sort.Slice is not
documented stable, so nothing more is known about the order among
equal timestamps; compaction facts are proved for every function
satisfying this contract, covering whatever order the library picks. -/
def validResort (f : List CellVersion → List CellVersion) : Prop :=
  ∀ L : List CellVersion, sortedDesc (f L) ∧ (f L).Perm L

/-- First candidate attaining the greatest timestamp of the list, the
tie-break rule in the specification vocabulary: earlier candidates win
ties. -/
def firstMaxV : List CellVersion → Option CellVersion
  | [] => none
  | c :: rest =>
    match firstMaxV rest with
    | none => some c
    | some b => if c.timestamp < b.timestamp then some b else some c

/-- Combination of the best candidates of two candidate lists laid end
to end: a later candidate displaces an earlier one only with a strictly
greater timestamp. -/
def combineCand : Option CellVersion → Option CellVersion → Option CellVersion
  | none, y => y
  | some a, none => some a
  | some a, some b => if a.timestamp < b.timestamp then some b else some a

/-- Candidate list of an optional candidate (used to reduce facts
about combineCand to facts about firstMaxV). -/
def optList : Option CellVersion → List CellVersion
  | none => []
  | some v => [v]

/-- Read over a bare sstable list (no memtable): the candidate per
table in order, then the best-candidate scan; the before/after state of
compaction is compared through this reader. -/
def candsOfTables (ts : List SSTable) (key family qualifier : String) :
    List CellVersion :=
  ts.foldr (fun s acc =>
    match tableCand s key family qualifier with
    | some v => v :: acc
    | none => acc) []

/-- Latest visible version for a cell address over a sstable list. -/
def readTables (ts : List SSTable) (key family qualifier : String) :
    Option CellVersion :=
  pickBest (candsOfTables ts key family qualifier)

/-- Version sequence a row holds for a column key (empty when absent). -/
def colVerss (r : Row) (ck : String) : List CellVersion :=
  match lookupCol r.columns ck with
  | some c => c.versions
  | none => []

/-- Version sequence a row list holds for a cell address: the versions
of the first row with the key. -/
def rowsVerssAt (rows : List Row) (key ck : String) : List CellVersion :=
  match rows.find? (fun r => r.key == key) with
  | some r => colVerss r ck
  | none => []

/-- Version sequence a table holds for a cell address: the versions of
the first row record with the key. -/
def tableVerss (s : SSTable) (key ck : String) : List CellVersion :=
  rowsVerssAt s.rows key ck

/-- All versions a sstable list holds for a cell address, in table
order. -/
def tablesVerss (ts : List SSTable) (key ck : String) : List CellVersion :=
  ts.foldr (fun s acc => tableVerss s key ck ++ acc) []

/-- Versions contributed by a plain row list for a cell address (used
for the accumulator of Compact and for flattened inputs). -/
def rowListVerss (rows : List Row) (key ck : String) : List CellVersion :=
  rows.foldr (fun r acc => (if r.key = key then colVerss r ck else []) ++ acc) []

/-- Occurrences of a concrete (timestamp, value) version in a version
list. -/
def countV : List CellVersion → Int → Bytes → Nat
  | [], _, _ => 0
  | cv :: rest, ts, v =>
    (if cv.timestamp = ts ∧ cv.value = v then 1 else 0) + countV rest ts v

/-- Occurrences of a concrete cell (column key, timestamp, value) over
a column entry list. -/
def colsCount (cols : List (String × Column)) (ck : String) (ts : Int) (v : Bytes) : Nat :=
  cols.foldr (fun p acc =>
    (if p.1 = ck then countV p.2.versions ts v else 0) + acc) 0

/-- Occurrences of a concrete cell (column key, timestamp, value) in a
row, over all its column entries. -/
def Row.cellCount (r : Row) (ck : String) (ts : Int) (v : Bytes) : Nat :=
  colsCount r.columns ck ts v

/-- Count of the Set operations of a mutation that produce the given
cell under the given clock (the stamped timestamp must match). -/
def opsCount (ops : List MutationOperation) (ck : String) (ts : Int) (v : Bytes)
    (now : Int) : Nat :=
  ops.foldr (fun op acc =>
    (if op.type = .set ∧ colKey op.family op.qualifier = ck ∧
        stampTs now op.timestamp = ts ∧ op.value = v then 1 else 0) + acc) 0

/-- Occurrences of a concrete cell (row key, column key, timestamp,
value) in a row list. -/
def rowsCellCount (rows : List Row) (key ck : String) (ts : Int) (v : Bytes) : Nat :=
  rows.foldr (fun r acc =>
    (if r.key = key then r.cellCount ck ts v else 0) + acc) 0

/-- Membership of a row key in a row list. -/
def hasKey (rows : List Row) (key : String) : Prop := ∃ r ∈ rows, r.key = key

instance (rows : List Row) (key : String) : Decidable (hasKey rows key) := by
  unfold hasKey; infer_instance

/-- Well-formedness of a row as the engine writes it: column entries
keyed by the colKey of their column, at most one entry per column key,
and every version list sorted descending. -/
def wfRow (r : Row) : Prop :=
  (r.columns.map Prod.fst).Nodup ∧
  ∀ p ∈ r.columns, p.1 = colKey p.2.family p.2.qualifier ∧ sortedDesc p.2.versions

instance (r : Row) : Decidable (wfRow r) := by
  unfold wfRow; infer_instance

/-- Well-formedness of a sstable as flush and compaction write it:
row keys distinct, every row well formed. -/
def wfTable (s : SSTable) : Prop :=
  (s.rows.map Row.key).Nodup ∧ ∀ r ∈ s.rows, wfRow r

instance (s : SSTable) : Decidable (wfTable s) := by
  unfold wfTable; infer_instance

/-- No stored version carries the sentinel timestamp zero (established
by the stamping rule: once stored, no timestamp is zero). -/
def noZeroTs (rows : List Row) : Prop :=
  ∀ r ∈ rows, ∀ p ∈ r.columns, ∀ ver ∈ p.2.versions, ver.timestamp ≠ 0

instance (rows : List Row) : Decidable (noZeroTs rows) := by
  unfold noZeroTs; infer_instance

/-- Versions of one cell address that carry equal timestamps carry one
value, across the whole input list (the specification's proviso that
equal-timestamp candidates originated from the same value).  Without
it, the value read at a conflicting tie after compaction depends on
the unspecified equal-timestamp order of sort.Slice. -/
def tiesSameValue (ts : List SSTable) : Prop :=
  ∀ s1 ∈ ts, ∀ r1 ∈ s1.rows, ∀ p1 ∈ r1.columns, ∀ x ∈ p1.2.versions,
  ∀ s2 ∈ ts, ∀ r2 ∈ s2.rows, ∀ p2 ∈ r2.columns, ∀ y ∈ p2.2.versions,
    r1.key = r2.key → p1.1 = p2.1 → x.timestamp = y.timestamp → x.value = y.value

instance (ts : List SSTable) : Decidable (tiesSameValue ts) := by
  unfold tiesSameValue; infer_instance

/-
Concrete states used by witnesses and counterexamples.
-/

/-- Row with key k holding one cell f:q with timestamp 100 and value 65. -/
def rowK65 : Row := ⟨"k", [("f:q", ⟨"f", "q", [⟨100, [65]⟩]⟩)]⟩

/-- Row with key k holding one cell f:q with timestamp 100 and value 66. -/
def rowK66 : Row := ⟨"k", [("f:q", ⟨"f", "q", [⟨100, [66]⟩]⟩)]⟩

/-- Row with key a holding one cell f:q with timestamp 5 and value 1. -/
def rowA : Row := ⟨"a", [("f:q", ⟨"f", "q", [⟨5, [1]⟩]⟩)]⟩

/-- Row with key b holding one cell f:q with timestamp 6 and value 2. -/
def rowB : Row := ⟨"b", [("f:q", ⟨"f", "q", [⟨6, [2]⟩]⟩)]⟩

/-- Tablet over the full key space with two sstables that disagree on
the value of cell (k, f:q) at the same timestamp 100: the older file
(first registered) holds 65, the newer holds 66. -/
def tabTie : Tablet := ⟨"", "", MemTable.empty, [⟨[rowK65]⟩, ⟨[rowK66]⟩], []⟩

/-- Tablet whose only distinct row key a appears both in the memtable
and in one sstable (size estimate 10). -/
def tabOneKey : Tablet := ⟨"", "", ⟨[rowA], 10⟩, [⟨[rowA]⟩], []⟩

/-- Memtable with two rows and size estimate 42. -/
def mtTwo : MemTable := ⟨[rowA, rowK65], 42⟩

/-- Tablet over the full key space holding rows a and b in the
memtable (size estimate 20). -/
def tabAB : Tablet := ⟨"", "", ⟨[rowA, rowB], 20⟩, [], []⟩

/-- Small mutation writing value 7 into (k, f:q) with the sentinel
timestamp zero. -/
def mutZeroTs : RowMutation := ⟨"k", [⟨.set, "f", "q", 0, [7]⟩]⟩

/-- Sstable holding rows a and k (value 65). -/
def sstA : SSTable := ⟨[rowA, rowK65]⟩

/-- Sstable holding row k with value 66 at the same timestamp 100. -/
def sstB : SSTable := ⟨[rowK66]⟩

/-- Sstable holding row k with value 9 at the later timestamp 200. -/
def sstD : SSTable := ⟨[⟨"k", [("f:q", ⟨"f", "q", [⟨200, [9]⟩]⟩)]⟩]⟩

/-
Order lemmas for the byte-lexicographic string comparison.
-/

theorem ltBytes_irrefl (x : List Nat) : ltBytes x x = false := by
  induction x with
  | nil => rfl
  | cons a as ih => simp [ltBytes, ih]

theorem ltBytes_asymm {a b : List Nat} (h : ltBytes a b = true) : ltBytes b a = false := by
  induction a generalizing b with
  | nil => cases b with
    | nil => simp [ltBytes] at h
    | cons y ys => simp [ltBytes]
  | cons x xs ih =>
    cases b with
    | nil => simp [ltBytes] at h
    | cons y ys =>
      simp only [ltBytes] at h ⊢
      by_cases hxy : x < y
      · simp [hxy, Nat.not_lt.mpr (Nat.le_of_lt hxy), Nat.lt_asymm hxy]
      · by_cases hyx : y < x
        · simp [hxy, hyx] at h
        · have heq : ¬ x < y := hxy
          simp only [if_neg hxy, if_neg hyx] at h
          simp [hyx, hxy, ih h]

theorem ltBytes_trans {a b c : List Nat} (h1 : ltBytes a b = true)
    (h2 : ltBytes b c = true) : ltBytes a c = true := by
  induction a generalizing b c with
  | nil =>
    cases c with
    | nil =>
      cases b with
      | nil => simpa using h1
      | cons y ys => simp [ltBytes] at h2
    | cons z zs => simp [ltBytes]
  | cons x xs ih =>
    cases b with
    | nil => simp [ltBytes] at h1
    | cons y ys =>
      cases c with
      | nil => simp [ltBytes] at h2
      | cons z zs =>
        simp only [ltBytes] at h1 h2 ⊢
        by_cases hxy : x < y <;> by_cases hyz : y < z
        · simp [Nat.lt_trans hxy hyz]
        · simp only [if_pos hxy] at h1
          by_cases hzy : z < y
          · simp [hxy, hyz, hzy] at h2
          · have : y = z := Nat.le_antisymm (Nat.le_of_not_lt hzy) (Nat.le_of_not_lt hyz)
            subst this
            simp [hxy]
        · simp only [if_neg hxy] at h1
          by_cases hyx : y < x
          · simp [hyx] at h1
          · have : x = y := Nat.le_antisymm (Nat.le_of_not_lt hyx) (Nat.le_of_not_lt hxy)
            subst this
            simp [hyz]
        · simp only [if_neg hxy, if_neg hyz] at h1 h2 ⊢
          by_cases hyx : y < x
          · simp [hyx] at h1
          · by_cases hzy : z < y
            · simp [hzy] at h2
            · have hx : x = y := Nat.le_antisymm (Nat.le_of_not_lt hyx) (Nat.le_of_not_lt hxy)
              have hy : y = z := Nat.le_antisymm (Nat.le_of_not_lt hzy) (Nat.le_of_not_lt hyz)
              subst hx; subst hy
              simp only [if_neg (Nat.lt_irrefl x)] at h1 h2 ⊢
              exact ih h1 h2

theorem ltBytes_antisymm {a b : List Nat} (h1 : ltBytes a b = false)
    (h2 : ltBytes b a = false) : a = b := by
  induction a generalizing b with
  | nil => cases b with
    | nil => rfl
    | cons y ys => simp [ltBytes] at h1
  | cons x xs ih =>
    cases b with
    | nil => simp [ltBytes] at h2
    | cons y ys =>
      simp only [ltBytes] at h1 h2
      by_cases hxy : x < y
      · simp [hxy] at h1
      · by_cases hyx : y < x
        · simp [hyx, Nat.lt_asymm hyx] at h2
        · have : x = y := Nat.le_antisymm (Nat.le_of_not_lt hyx) (Nat.le_of_not_lt hxy)
          subst this
          simp only [if_neg (Nat.lt_irrefl x)] at h1 h2
          rw [ih h1 h2]

theorem ltBytes_cotrans {a c : List Nat} (b : List Nat) (h : ltBytes a c = true) :
    ltBytes a b = true ∨ ltBytes b c = true := by
  by_cases hab : ltBytes a b = true
  · exact Or.inl hab
  · by_cases hba : ltBytes b a = true
    · exact Or.inr (ltBytes_trans hba h)
    · have : b = a := ltBytes_antisymm (Bool.eq_false_iff.mpr hba) (Bool.eq_false_iff.mpr hab)
      subst this
      exact Or.inr h

theorem strBytes_inj {a b : String} (h : strBytes a = strBytes b) : a = b := by
  unfold strBytes at h
  have hd : a.data = b.data := by
    have hmap : a.data.map (fun c => Char.ofNat c.toNat)
        = b.data.map (fun c => Char.ofNat c.toNat) := by
      have h2 := congrArg (List.map Char.ofNat) h
      simpa [List.map_map, Function.comp_def] using h2
    simpa [Char.ofNat_toNat] using hmap
  exact congrArg String.mk hd

theorem keyLt_irrefl (s : String) : keyLt s s = false := ltBytes_irrefl _

theorem keyLt_asymm {a b : String} (h : keyLt a b = true) : keyLt b a = false :=
  ltBytes_asymm h

theorem keyLt_trans {a b c : String} (h1 : keyLt a b = true) (h2 : keyLt b c = true) :
    keyLt a c = true := ltBytes_trans h1 h2

theorem keyLt_antisymm {a b : String} (h1 : keyLt a b = false)
    (h2 : keyLt b a = false) : a = b :=
  strBytes_inj (ltBytes_antisymm h1 h2)

theorem keyLt_cotrans {a c : String} (b : String) (h : keyLt a c = true) :
    keyLt a b = true ∨ keyLt b c = true := ltBytes_cotrans _ h

/-
Claim C1: mutate checks the range first, appends to the WAL before the
memtable apply, and fails without touching what it has not reached.
-/

/-- Claim C1: Tablet.Mutate first checks InRange and fails with
OutOfRange leaving the whole tablet (WAL and memtable) unchanged; for
an in-range key the WAL append precedes the memtable apply, a failed
WAL append surfaces the append error (wrapped as walFailed) with the
memtable unchanged, and a successful append is followed by exactly the
memtable apply. -/
theorem c1_mutate_range_wal_memtable (t : Tablet) (m : RowMutation) (now : Int)
    (w : WalWrite) :
    (t.inRange m.rowKey = false →
      t.mutate m now w = (.error (.outOfRange m.rowKey t.startKey t.endKey), t)) ∧
    (t.inRange m.rowKey = true → ∀ e k, w = .fail e k →
      (t.mutate m now w).1 = .error (.walFailed e) ∧
      (t.mutate m now w).2.mem = t.mem ∧
      (t.mutate m now w).2.sstables = t.sstables ∧
      (t.mutate m now w).2.startKey = t.startKey ∧
      (t.mutate m now w).2.endKey = t.endKey) ∧
    (t.inRange m.rowKey = true →
      t.mutate m now .ok =
        (.ok (), { t with wal := t.wal ++ encodeMutation m, mem := t.mem.apply m now })) := by
  refine ⟨fun hout => ?_, fun hin e k hw => ?_, fun hin => ?_⟩
  · simp [Tablet.mutate, hout]
  · subst hw
    simp [Tablet.mutate, hin, CommitLog.append]
  · simp [Tablet.mutate, hin, CommitLog.append]

/-- Witness for C1 at concrete inputs: an out-of-range mutate returns
OutOfRange with the tablet unchanged, and an in-range mutate whose WAL
write fails surfaces the wrapped error with the memtable unchanged. -/
theorem c1_witness :
    ((Tablet.new "a" "b").mutate ⟨"z", []⟩ 0 .ok
      = (.error (.outOfRange "z" "a" "b"), Tablet.new "a" "b")) ∧
    ((Tablet.new "a" "b").mutate ⟨"a", []⟩ 0 (.fail 7 2)).1 = .error (.walFailed 7) ∧
    ((Tablet.new "a" "b").mutate ⟨"a", []⟩ 0 (.fail 7 2)).2.mem = (Tablet.new "a" "b").mem :=
  ⟨(c1_mutate_range_wal_memtable (Tablet.new "a" "b") ⟨"z", []⟩ 0 .ok).1 (by decide),
   ((c1_mutate_range_wal_memtable (Tablet.new "a" "b") ⟨"a", []⟩ 0 (.fail 7 2)).2.1
      (by decide) 7 2 rfl).1,
   ((c1_mutate_range_wal_memtable (Tablet.new "a" "b") ⟨"a", []⟩ 0 (.fail 7 2)).2.1
      (by decide) 7 2 rfl).2.1⟩

/-
Claim C4: Column.Insert ordering.
-/

theorem insertVersion_mem {nv x : CellVersion} :
    ∀ {vs : List CellVersion}, x ∈ insertVersion vs nv → x ∈ vs ∨ x = nv
  | [], h => by simpa [insertVersion] using h
  | v :: rest, h => by
    by_cases hle : v.timestamp ≤ nv.timestamp
    · simp only [insertVersion, if_pos hle, List.mem_cons] at h
      rcases h with h | h | h
      · exact Or.inr h
      · exact Or.inl (by simp [h])
      · exact Or.inl (List.mem_cons_of_mem _ h)
    · simp only [insertVersion, if_neg hle, List.mem_cons] at h
      rcases h with h | h
      · exact Or.inl (by simp [h])
      · rcases insertVersion_mem h with h2 | h2
        · exact Or.inl (List.mem_cons_of_mem _ h2)
        · exact Or.inr h2

theorem insertVersion_sorted (nv : CellVersion) :
    ∀ {vs : List CellVersion}, sortedDesc vs → sortedDesc (insertVersion vs nv)
  | [], _ => by simp [insertVersion, sortedDesc]
  | v :: rest, h => by
    rcases (List.pairwise_cons.mp h) with ⟨hv, hrest⟩
    by_cases hle : v.timestamp ≤ nv.timestamp
    · simp only [insertVersion, if_pos hle]
      refine List.pairwise_cons.mpr ⟨?_, h⟩
      intro x hx
      rcases List.mem_cons.mp hx with hx | hx
      · simp [hx, hle]
      · exact le_trans (hv x hx) hle
    · simp only [insertVersion, if_neg hle]
      refine List.pairwise_cons.mpr ⟨?_, insertVersion_sorted nv hrest⟩
      intro x hx
      rcases insertVersion_mem hx with h2 | h2
      · exact hv x h2
      · subst h2
        exact le_of_not_le hle

theorem insertVersion_position (vs : List CellVersion) (nv : CellVersion) :
    insertVersion vs nv =
      vs.takeWhile (fun w => decide (nv.timestamp < w.timestamp)) ++
        nv :: vs.dropWhile (fun w => decide (nv.timestamp < w.timestamp)) := by
  induction vs with
  | nil => simp [insertVersion]
  | cons v rest ih =>
    by_cases hle : v.timestamp ≤ nv.timestamp
    · have hnot : ¬ nv.timestamp < v.timestamp := not_lt.mpr hle
      simp [insertVersion, hle, List.takeWhile_cons, List.dropWhile_cons, hnot]
    · have hlt : nv.timestamp < v.timestamp := lt_of_not_le hle
      simp [insertVersion, hle, List.takeWhile_cons, List.dropWhile_cons, hlt, ih]

/-- Claim C4 counterexample: inserting a version at an already-present
timestamp places the new version before the existing equal-timestamp
version, not after it as the claim states. -/
theorem c4_counterexample :
    (Column.insert ⟨"f", "q", [⟨200, [0]⟩]⟩ 1 200 [1]).versions
      = [⟨200, [1]⟩, ⟨200, [0]⟩] ∧
    (Column.insert ⟨"f", "q", [⟨200, [0]⟩]⟩ 1 200 [1]).versions
      ≠ [⟨200, [0]⟩, ⟨200, [1]⟩] := by decide

/-- Claim C4 as amended: Column.Insert keeps the version list sorted by
timestamp descending, and the new version (timestamp stamped with the
clock when zero) lands directly after the strictly greater timestamps,
hence before every existing version of equal timestamp. -/
theorem c4_insert_sorted_new_before_equal (c : Column) (now ts : Int) (v : Bytes)
    (h : sortedDesc c.versions) :
    sortedDesc (c.insert now ts v).versions ∧
    (c.insert now ts v).versions =
      c.versions.takeWhile (fun w => decide (stampTs now ts < w.timestamp)) ++
        ⟨stampTs now ts, v⟩ ::
          c.versions.dropWhile (fun w => decide (stampTs now ts < w.timestamp)) :=
  ⟨insertVersion_sorted _ h, insertVersion_position _ _⟩

/-- Witness for C4 amended at a concrete column: inserting timestamp
150 into versions at 200 and 100 keeps the descending order and places
the new version between them. -/
theorem c4_witness :
    sortedDesc [⟨200, [0]⟩, ⟨100, [1]⟩] ∧
    sortedDesc ((Column.insert ⟨"f", "q", [⟨200, [0]⟩, ⟨100, [1]⟩]⟩ 3 150 [2]).versions) ∧
    (Column.insert ⟨"f", "q", [⟨200, [0]⟩, ⟨100, [1]⟩]⟩ 3 150 [2]).versions =
      [⟨200, [0]⟩, ⟨100, [1]⟩].takeWhile (fun w => decide (stampTs 3 150 < w.timestamp)) ++
        ⟨stampTs 3 150, [2]⟩ ::
          [⟨200, [0]⟩, ⟨100, [1]⟩].dropWhile (fun w => decide (stampTs 3 150 < w.timestamp)) :=
  ⟨by decide,
   (c4_insert_sorted_new_before_equal ⟨"f", "q", [⟨200, [0]⟩, ⟨100, [1]⟩]⟩ 3 150 [2]
      (by decide)).1,
   (c4_insert_sorted_new_before_equal ⟨"f", "q", [⟨200, [0]⟩, ⟨100, [1]⟩]⟩ 3 150 [2]
      (by decide)).2⟩

/-
Claim C3: WAL round trip.
-/

theorem decString_enc (s : String) (rest : List Nat) :
    decString (encString s ++ rest) = some (s, rest) := by
  have hlen : (s.data.map Char.toNat).length = s.length := by
    rw [List.length_map, String.length_data]
  simp only [encString, List.cons_append, decString]
  rw [if_pos (by simp [hlen])]
  rw [List.take_left' (by simp [hlen]), List.drop_left' (by simp [hlen])]
  have hmap : (s.data.map Char.toNat).map Char.ofNat = s.data := by
    simp [List.map_map, Function.comp_def, Char.ofNat_toNat]
  rw [hmap]

theorem decInt_enc (i : Int) (rest : List Nat) :
    decInt (encInt i ++ rest) = some (i, rest) := by
  by_cases h : i < 0
  · simp only [encInt, if_pos h, List.cons_append, List.nil_append, decInt]
    congr 2
    omega
  · simp only [encInt, if_neg h, List.cons_append, List.nil_append, decInt]
    congr 2
    omega

theorem decBytes_enc (b : Bytes) (rest : List Nat) :
    decBytes (encBytes b ++ rest) = some (b, rest) := by
  simp only [encBytes, List.cons_append, decBytes]
  rw [if_pos (by simp)]
  rw [List.take_left' rfl, List.drop_left' rfl]

theorem decOp_enc (op : MutationOperation) (rest : List Nat) :
    decOp (encOp op ++ rest) = some (op, rest) := by
  cases op with
  | mk ty fam qual ts v =>
    have h : encOp ⟨ty, fam, qual, ts, v⟩ ++ rest
        = ty.code ::
          (encString fam ++ (encString qual ++ (encInt ts ++ (encBytes v ++ rest)))) := by
      simp [encOp]
    rw [h]
    have htag : (if ty.code = 0 then some MutationType.set
        else if ty.code = 1 then some MutationType.delete else none) = some ty := by
      cases ty <;> rfl
    simp only [decOp, htag, decString_enc, decInt_enc, decBytes_enc]

theorem decOps_enc (ops : List MutationOperation) (rest : List Nat) :
    decOps ops.length ((ops.map encOp).flatten ++ rest) = some (ops, rest) := by
  induction ops generalizing rest with
  | nil => simp [decOps]
  | cons op more ih =>
    simp only [List.map_cons, List.flatten_cons, List.length_cons, List.append_assoc,
      decOps, decOp_enc, ih]

theorem decodeMutation_enc (m : RowMutation) (rest : List Nat) :
    decodeMutation (encodeMutation m ++ rest) = some (m, rest) := by
  cases m with
  | mk key ops =>
    simp only [encodeMutation, decodeMutation, List.append_assoc, List.cons_append]
    rw [decString_enc]
    simp only [decOps_enc]

/-- Every encoded record occupies at least one token. -/
theorem encodeMutation_length_pos (m : RowMutation) : 0 < (encodeMutation m).length := by
  simp [encodeMutation, encString]

theorem appendAll_eq_encodeAll (ms : List RowMutation) :
    ∀ wal : List Nat, appendAll wal ms = wal ++ encodeAll ms := by
  induction ms with
  | nil => intro wal; simp [appendAll, encodeAll]
  | cons m more ih =>
    intro wal
    have h2 : appendAll wal (m :: more) = appendAll (wal ++ encodeMutation m) more := by
      simp [appendAll, CommitLog.append]
    rw [h2, ih]
    simp [encodeAll]

theorem recoverAux_encodeAll (ms : List RowMutation) :
    ∀ fuel : Nat, (encodeAll ms).length ≤ fuel →
      recoverAux fuel (encodeAll ms) = some ms := by
  induction ms with
  | nil => intro fuel _; simp [encodeAll, recoverAux]
  | cons m more ih =>
    intro fuel hfuel
    have hsplit : encodeAll (m :: more) = encodeMutation m ++ encodeAll more := by
      simp [encodeAll]
    rw [hsplit] at hfuel ⊢
    have hpos : 0 < (encodeMutation m ++ encodeAll more).length := by
      simp only [List.length_append]
      have := encodeMutation_length_pos m
      omega
    obtain ⟨x, xs, hx⟩ := List.exists_cons_of_ne_nil (List.ne_nil_of_length_pos hpos)
    obtain ⟨f, hf⟩ : ∃ f, fuel = f + 1 := by
      rcases fuel with _ | f
      · rw [hx] at hfuel; simp at hfuel
      · exact ⟨f, rfl⟩
    subst hf
    rw [hx]
    have hdec : decodeMutation (x :: xs) = some (m, encodeAll more) := by
      rw [← hx]; exact decodeMutation_enc m (encodeAll more)
    have hrest : (encodeAll more).length ≤ f := by
      have h1 := encodeMutation_length_pos m
      have h2 : (encodeMutation m ++ encodeAll more).length
          = (encodeMutation m).length + (encodeAll more).length := by simp
      omega
    simp only [recoverAux, hdec, ih f hrest]

/-- Claim C3: a sequence of mutations appended to an initially empty
commit log (each append succeeding) is recovered exactly and in commit
order by Recover, which decodes records from offset 0 until clean
EOF. -/
theorem c3_wal_roundtrip (ms : List RowMutation) :
    CommitLog.recover (appendAll [] ms) = some ms := by
  rw [appendAll_eq_encodeAll, List.nil_append]
  exact recoverAux_encodeAll ms (encodeAll ms).length le_rfl

/-
Claim C2: Tablet.Read candidate selection.
-/

theorem pickBest_loop (L : List CellVersion) (a : CellVersion) :
    L.foldl (fun best c =>
      match best with
      | none => some c
      | some b => if b.timestamp < c.timestamp then some c else some b) (some a) =
    match firstMaxV L with
    | none => some a
    | some b => if a.timestamp < b.timestamp then some b else some a := by
  induction L generalizing a with
  | nil => simp [firstMaxV]
  | cons c rest ih =>
    simp only [List.foldl_cons]
    by_cases hac : a.timestamp < c.timestamp
    · rw [if_pos hac, ih]
      cases hrest : firstMaxV rest with
      | none => simp [firstMaxV, hrest, hac]
      | some b =>
        simp only [firstMaxV, hrest]
        by_cases hcb : c.timestamp < b.timestamp
        · have hab : a.timestamp < b.timestamp := by omega
          simp [if_pos hcb, if_pos hab]
        · simp [if_neg hcb, hac]
    · rw [if_neg hac, ih]
      cases hrest : firstMaxV rest with
      | none => simp [firstMaxV, hrest, hac]
      | some b =>
        simp only [firstMaxV, hrest]
        by_cases hcb : c.timestamp < b.timestamp
        · simp [if_pos hcb]
        · have hab : ¬ a.timestamp < b.timestamp := by omega
          simp [if_neg hcb, hab, hac]

theorem pickBest_eq_firstMaxV (L : List CellVersion) : pickBest L = firstMaxV L := by
  cases L with
  | nil => rfl
  | cons c rest =>
    have h : pickBest (c :: rest) = rest.foldl (fun best c =>
      match best with
      | none => some c
      | some b => if b.timestamp < c.timestamp then some c else some b) (some c) := rfl
    rw [h, pickBest_loop]
    rfl

theorem firstMaxV_append (X Y : List CellVersion) :
    firstMaxV (X ++ Y) = combineCand (firstMaxV X) (firstMaxV Y) := by
  induction X with
  | nil => cases hY : firstMaxV Y <;> simp [firstMaxV, combineCand, hY]
  | cons c X ih =>
    simp only [List.cons_append, firstMaxV, List.append_eq]
    rw [ih]
    cases hX : firstMaxV X with
    | none =>
      cases hY : firstMaxV Y with
      | none => simp [combineCand]
      | some b => simp [combineCand]
    | some a =>
      cases hY : firstMaxV Y with
      | none =>
        by_cases hca : c.timestamp < a.timestamp <;> simp [combineCand, hca]
      | some b =>
        simp only [combineCand]
        by_cases hab : a.timestamp < b.timestamp
        · by_cases hca : c.timestamp < a.timestamp
          · have hcb : c.timestamp < b.timestamp := by omega
            simp [if_pos hab, if_pos hca, if_pos hcb]
          · simp [if_pos hab, if_neg hca]
        · by_cases hca : c.timestamp < a.timestamp
          · simp [if_neg hab, if_pos hca]
          · have hcb : ¬ c.timestamp < b.timestamp := by omega
            simp [if_neg hab, if_neg hca, if_neg hcb]

/-- Claim C2 counterexample: two sstables hold cell (k, f:q) at the
same timestamp 100, the older file with value 65 and the newer with 66;
Read returns the older file's candidate (the scan replaces the best
only on a strictly greater timestamp), while the claim says the newest
file wins the tie. -/
theorem c2_counterexample :
    tabTie.read "k" "f" "q" = .ok (some ⟨100, [65]⟩) ∧
    tabTie.read "k" "f" "q" ≠ .ok (some ⟨100, [66]⟩) := by decide

/-- Claim C2 as amended: for an in-range key, Read returns the first
candidate attaining the greatest timestamp among the per-source latest
versions, collected from the memtable first and then from the sstables
in registration order; so the memtable wins timestamp ties and among
sstables the OLDEST file (forward insertion order) wins, not the
newest.  An out-of-range key yields OutOfRange. -/
theorem c2_read_first_max (t : Tablet) (key family qualifier : String) :
    (t.inRange key = true →
      t.read key family qualifier
        = .ok (firstMaxV (t.readCandidates key family qualifier))) ∧
    (t.inRange key = false →
      t.read key family qualifier = .error (.outOfRange key t.startKey t.endKey)) := by
  constructor
  · intro h
    simp [Tablet.read, h, pickBest_eq_firstMaxV]
  · intro h
    simp [Tablet.read, h]

/-- Witness for C2 amended at the two-sstable tie state. -/
theorem c2_witness :
    tabTie.inRange "k" = true ∧
    tabTie.read "k" "f" "q" = .ok (firstMaxV (tabTie.readCandidates "k" "f" "q")) :=
  ⟨by decide, (c2_read_first_max tabTie "k" "f" "q").1 (by decide)⟩

/-
Claim C9: zero timestamps are stamped at apply time, so WAL replay
re-stamps them with the recovery clock.
-/

theorem ltBytes_nil_right (x : List Nat) : ltBytes x [] = false := by
  cases x <;> rfl

theorem keyLt_empty_right (s : String) : keyLt s "" = false := by
  have h : strBytes "" = [] := rfl
  unfold keyLt
  rw [h, ltBytes_nil_right]

theorem inRange_full (key : String) : (Tablet.new "" "").inRange key = true := by
  simp [Tablet.new, Tablet.inRange, keyLt_empty_right]

theorem Row.applyOp_key (r : Row) (op : MutationOperation) (now : Int) :
    (r.applyOp op now).key = r.key := by
  cases h : op.type <;> simp [Row.applyOp, h, Row.setInternal, Row.deleteInternal]

theorem Row.applyOps_key (ops : List MutationOperation) :
    ∀ (r : Row) (now : Int), (r.applyOps ops now).key = r.key := by
  induction ops with
  | nil => intro r now; rfl
  | cons op more ih =>
    intro r now
    have h : r.applyOps (op :: more) now = (r.applyOp op now).applyOps more now := rfl
    rw [h, ih, Row.applyOp_key]

/-- Claim C9: a Set operation carrying timestamp zero is written to the
WAL verbatim (still zero) before the memtable stamps it, Column.Insert
stamps it with the clock at apply time, and reopening the tablet from
the WAL replays the mutation and re-stamps the cell with the recovery
clock: the recovered value equals the original but the timestamp is the
recovery clock, which differs whenever the two clock readings do. -/
theorem c9_zero_ts_restamped (key f q : String) (v : Bytes) (now1 now2 : Int) :
    (((Tablet.new "" "").mutate ⟨key, [⟨.set, f, q, 0, v⟩]⟩ now1 .ok).2.wal
      = encodeMutation ⟨key, [⟨.set, f, q, 0, v⟩]⟩) ∧
    (CommitLog.recover
        (((Tablet.new "" "").mutate ⟨key, [⟨.set, f, q, 0, v⟩]⟩ now1 .ok).2.wal)
      = some [⟨key, [⟨.set, f, q, 0, v⟩]⟩]) ∧
    (((Tablet.new "" "").mutate ⟨key, [⟨.set, f, q, 0, v⟩]⟩ now1 .ok).2.read key f q
      = .ok (some ⟨now1, v⟩)) ∧
    ((Tablet.openDir "" ""
        (((Tablet.new "" "").mutate ⟨key, [⟨.set, f, q, 0, v⟩]⟩ now1 .ok).2.wal)
        [] now2).map (fun t => t.read key f q)
      = some (.ok (some ⟨now2, v⟩))) ∧
    (now1 ≠ now2 →
      (some (CellVersion.mk now2 v) : Option CellVersion) ≠ some ⟨now1, v⟩) := by
  have hin := inRange_full key
  have hwal : ((Tablet.new "" "").mutate ⟨key, [⟨.set, f, q, 0, v⟩]⟩ now1 .ok).2.wal
      = encodeMutation ⟨key, [⟨.set, f, q, 0, v⟩]⟩ := by
    simp [Tablet.mutate, CommitLog.append, Tablet.new, Tablet.inRange, keyLt_empty_right]
  have hrec : CommitLog.recover (encodeMutation ⟨key, [⟨.set, f, q, 0, v⟩]⟩)
      = some [⟨key, [⟨.set, f, q, 0, v⟩]⟩] := by
    have h3 := recoverAux_encodeAll [⟨key, [⟨.set, f, q, 0, v⟩]⟩]
      (encodeAll [⟨key, [⟨.set, f, q, 0, v⟩]⟩]).length le_rfl
    simpa [CommitLog.recover, encodeAll] using h3
  refine ⟨hwal, by rw [hwal]; exact hrec, ?_, ?_, ?_⟩
  · simp [Tablet.mutate, hin, CommitLog.append, Tablet.new, MemTable.empty,
      Tablet.read, Tablet.inRange, keyLt_empty_right, Tablet.readCandidates,
      MemTable.apply, MemTable.get, findRow, applyToRows, Row.applyOps, Row.applyOp,
      Row.setInternal, insertIntoCols, Row.new, Row.get, lookupCol, Column.insert,
      Column.new, Column.getLatest, insertVersion, pickBest, stampTs]
  · rw [hwal]
    simp [Tablet.openDir, hrec, Tablet.read, Tablet.inRange, keyLt_empty_right,
      Tablet.readCandidates, MemTable.apply, MemTable.get, MemTable.empty, findRow,
      applyToRows, Row.applyOps, Row.applyOp, Row.setInternal, insertIntoCols,
      Row.new, Row.get, lookupCol, Column.insert, Column.new, Column.getLatest,
      insertVersion, pickBest, stampTs]
  · intro hne hcon
    apply hne
    have h2 := Option.some.inj hcon
    exact ((CellVersion.mk.inj h2).1).symm

/-- Witness for C9 at concrete inputs: clocks 11 at first apply and 22
at recovery; the cell reads back with value 7 and timestamp 22, which
differs from the original timestamp 11. -/
theorem c9_witness :
    (((Tablet.new "" "").mutate ⟨"k", [⟨.set, "f", "q", 0, [7]⟩]⟩ 11 .ok).2.read "k" "f" "q"
      = .ok (some ⟨11, [7]⟩)) ∧
    ((Tablet.openDir "" ""
        (((Tablet.new "" "").mutate ⟨"k", [⟨.set, "f", "q", 0, [7]⟩]⟩ 11 .ok).2.wal)
        [] 22).map (fun t => t.read "k" "f" "q") = some (.ok (some ⟨22, [7]⟩))) ∧
    (some (CellVersion.mk 22 [7]) : Option CellVersion) ≠ some ⟨11, [7]⟩ :=
  ⟨(c9_zero_ts_restamped "k" "f" "q" [7] 11 22).2.2.1,
   (c9_zero_ts_restamped "k" "f" "q" [7] 11 22).2.2.2.1,
   (c9_zero_ts_restamped "k" "f" "q" [7] 11 22).2.2.2.2 (by decide)⟩

/-
Claim C8: the split precondition counts row records, not distinct keys.
-/

theorem writeRows_none (rows : List Row) : writeRows rows none = (rows, true) := by
  induction rows with
  | nil => rfl
  | cons r rest ih => simp [writeRows, ih]

theorem rowsOfTables_foldr (ts : List SSTable) (init : List Row) :
    List.foldr (fun s acc => s.rows ++ acc) init ts
      = List.foldr (fun s acc => s.rows ++ acc) [] ts ++ init := by
  induction ts with
  | nil => simp
  | cons x rest ih => simp [ih]

theorem rowsOfTables_append (ts ts2 : List SSTable) :
    rowsOfTables (ts ++ ts2) = rowsOfTables ts ++ rowsOfTables ts2 := by
  show List.foldr _ [] (ts ++ ts2) = _
  rw [List.foldr_append]
  exact rowsOfTables_foldr ts (rowsOfTables ts2)

theorem rowsOfTables_append_one (ts : List SSTable) (s : SSTable) :
    rowsOfTables (ts ++ [s]) = rowsOfTables ts ++ s.rows := by
  rw [rowsOfTables_append]
  simp [rowsOfTables]

/-- Claim C8 counterexample: a tablet whose data is the single distinct
key a, present once in the memtable and once in a sstable, passes the
record-count check (two records) and splits successfully, while the
claim requires NotEnoughRows whenever fewer than two distinct keys
exist. -/
theorem c8_counterexample :
    (tabOneKey.allRows.map Row.key).dedup = ["a"] ∧
    (tabOneKey.split 1 99).toOption.isSome = true ∧
    tabOneKey.split 1 99 ≠ .error .notEnoughRows := by decide

/-- Claim C8 as amended: when the size threshold passes, Split fails
with NotEnoughRows exactly when the total number of row records read
from the sstables after the pre-split flush (existing sstable records
plus flushed memtable rows) is fewer than two; distinct keys are not
counted. -/
theorem c8_not_enough_rows_counts_records (t : Tablet) (th now : Int)
    (hth : ¬ t.mem.sizeBytes < th) :
    t.split th now = .error .notEnoughRows ↔ t.allRows.length < 2 := by
  have hgetd : ((t.mem.flush none).file.getD []) = t.mem.rows := by
    simp [MemTable.flush, writeRows_none]
  have hall : rowsOfTables (t.sstables ++ [⟨(t.mem.flush none).file.getD []⟩])
      = t.allRows := by
    rw [hgetd, rowsOfTables_append_one]
    rfl
  unfold Tablet.split
  rw [if_neg hth]
  simp only [hall]
  by_cases hlen : t.allRows.length < 2
  · simp [hlen]
  · simp [hlen]

/-- Witness for C8 amended at the one-key tablet: its two row records
pass the record-count check, so neither side of the equivalence
holds. -/
theorem c8_witness :
    tabOneKey.split 1 99 = .error .notEnoughRows ↔ tabOneKey.allRows.length < 2 :=
  c8_not_enough_rows_counts_records tabOneKey 1 99 (by decide)

/-
Claim C6: compaction preserves visibility.  Version-level lemmas.
-/

theorem firstMaxV_eq_none_iff (L : List CellVersion) : firstMaxV L = none ↔ L = [] := by
  cases L with
  | nil => simp [firstMaxV]
  | cons c rest =>
    constructor
    · intro hcon
      simp only [firstMaxV] at hcon
      cases h : firstMaxV rest with
      | none => rw [h] at hcon; simp at hcon
      | some b =>
        rw [h] at hcon
        by_cases hc : c.timestamp < b.timestamp <;> simp [hc] at hcon
    · intro hcon
      simp at hcon

theorem firstMaxV_head_of_sorted {L : List CellVersion} (h : sortedDesc L) :
    firstMaxV L = L.head? := by
  induction L with
  | nil => rfl
  | cons c rest ih =>
    rcases List.pairwise_cons.mp h with ⟨hc, hrest⟩
    simp only [firstMaxV, ih hrest]
    cases hr : rest.head? with
    | none => rfl
    | some b =>
      have hb : b ∈ rest := by
        cases rest with
        | nil => simp at hr
        | cons x xs => simp at hr; simp [hr]
      have hble : b.timestamp ≤ c.timestamp := hc b hb
      have : ¬ c.timestamp < b.timestamp := not_lt.mpr hble
      simp [this]

theorem sortVersionsDesc_sorted (L : List CellVersion) :
    sortedDesc (sortVersionsDesc L) := by
  induction L with
  | nil => simp [sortVersionsDesc, sortedDesc]
  | cons c rest ih => exact insertVersion_sorted c ih

theorem insertVersion_perm (vs : List CellVersion) (nv : CellVersion) :
    (insertVersion vs nv).Perm (nv :: vs) := by
  induction vs with
  | nil => exact List.Perm.refl _
  | cons v rest ih =>
    by_cases h : v.timestamp ≤ nv.timestamp
    · simp only [insertVersion, if_pos h]
      exact List.Perm.refl _
    · simp only [insertVersion, if_neg h]
      exact (List.Perm.cons v ih).trans (List.Perm.swap nv v rest)

theorem sortVersionsDesc_perm (L : List CellVersion) :
    (sortVersionsDesc L).Perm L := by
  induction L with
  | nil => exact List.Perm.refl _
  | cons c rest ih =>
    have h1 : sortVersionsDesc (c :: rest) = insertVersion (sortVersionsDesc rest) c := rfl
    rw [h1]
    exact (insertVersion_perm (sortVersionsDesc rest) c).trans (List.Perm.cons c ih)

theorem validResort_sortVersionsDesc : validResort sortVersionsDesc :=
  fun L => ⟨sortVersionsDesc_sorted L, sortVersionsDesc_perm L⟩

theorem head_insertVersion (acc : List CellVersion) (nv : CellVersion) :
    (insertVersion acc nv).head? =
      match acc.head? with
      | none => some nv
      | some a => if a.timestamp ≤ nv.timestamp then some nv else some a := by
  cases acc with
  | nil => rfl
  | cons a rest =>
    by_cases h : a.timestamp ≤ nv.timestamp <;> simp [insertVersion, h]

theorem head_sortVersionsDesc (L : List CellVersion) :
    (sortVersionsDesc L).head? = firstMaxV L := by
  induction L with
  | nil => rfl
  | cons c rest ih =>
    have h1 : sortVersionsDesc (c :: rest) = insertVersion (sortVersionsDesc rest) c := rfl
    rw [h1, head_insertVersion, ih]
    simp only [firstMaxV]
    cases hr : firstMaxV rest with
    | none => rfl
    | some b =>
      by_cases hb : b.timestamp ≤ c.timestamp
      · have : ¬ c.timestamp < b.timestamp := not_lt.mpr hb
        simp [hb, this]
      · have : c.timestamp < b.timestamp := lt_of_not_le hb
        simp [hb, this]

theorem firstMaxV_spec :
    ∀ {L : List CellVersion} {b : CellVersion}, firstMaxV L = some b →
      b ∈ L ∧ ∀ x ∈ L, x.timestamp ≤ b.timestamp
  | [], b, h => by simp [firstMaxV] at h
  | c :: rest, b, h => by
    have hsplit : firstMaxV (c :: rest)
        = match firstMaxV rest with
          | none => some c
          | some m => if c.timestamp < m.timestamp then some m else some c := rfl
    cases hr : firstMaxV rest with
    | none =>
      rw [hsplit, hr] at h
      have hc : c = b := Option.some.inj h
      subst hc
      have hnil : rest = [] := (firstMaxV_eq_none_iff rest).mp hr
      subst hnil
      refine ⟨List.mem_cons_self c [], ?_⟩
      intro x hx
      rcases List.mem_cons.mp hx with hx | hx
      · rw [hx]
      · simp at hx
    | some m =>
      rw [hsplit, hr] at h
      have h2 : (if c.timestamp < m.timestamp then some m else some c) = some b := h
      rcases firstMaxV_spec hr with ⟨hmem, hmax⟩
      by_cases hlt : c.timestamp < m.timestamp
      · rw [if_pos hlt] at h2
        have hm : m = b := Option.some.inj h2
        subst hm
        refine ⟨List.mem_cons_of_mem _ hmem, ?_⟩
        intro x hx
        rcases List.mem_cons.mp hx with hx | hx
        · rw [hx]; exact le_of_lt hlt
        · exact hmax x hx
      · rw [if_neg hlt] at h2
        have hc : c = b := Option.some.inj h2
        subst hc
        refine ⟨List.mem_cons_self c rest, ?_⟩
        intro x hx
        rcases List.mem_cons.mp hx with hx | hx
        · rw [hx]
        · exact le_trans (hmax x hx) (not_lt.mp hlt)

theorem sortedDesc_head_bound {L : List CellVersion} {a : CellVersion}
    (hs : sortedDesc L) (h : L.head? = some a) :
    ∀ x ∈ L, x.timestamp ≤ a.timestamp := by
  cases L with
  | nil => simp at h
  | cons c rest =>
    have hc : c = a := by simpa using h
    subst hc
    rcases List.pairwise_cons.mp hs with ⟨hbound, _⟩
    intro x hx
    rcases List.mem_cons.mp hx with hx | hx
    · rw [hx]
    · exact hbound x hx

/-- The head of any timestamp-descending reordering of Z is the best
candidate of Z, provided equal-timestamp versions of Z agree on the
value; the choice of reordering is otherwise immaterial. -/
theorem head_of_sorted_perm {AV Z : List CellVersion} (hs : sortedDesc AV)
    (hp : AV.Perm Z)
    (hsame : ∀ x ∈ Z, ∀ y ∈ Z, x.timestamp = y.timestamp → x.value = y.value) :
    AV.head? = firstMaxV Z := by
  cases hfm : firstMaxV Z with
  | none =>
    have hnil : Z = [] := (firstMaxV_eq_none_iff Z).mp hfm
    subst hnil
    rw [hp.eq_nil]
    rfl
  | some b =>
    rcases firstMaxV_spec hfm with ⟨hbmem, hbmax⟩
    have hbAV : b ∈ AV := hp.mem_iff.mpr hbmem
    cases hhd : AV.head? with
    | none =>
      cases AV with
      | nil => simp at hbAV
      | cons c cs => simp at hhd
    | some a =>
      have haAV : a ∈ AV := by
        cases AV with
        | nil => simp at hhd
        | cons c cs =>
          have hac : c = a := by simpa using hhd
          rw [← hac]
          exact List.mem_cons_self c cs
      have haZ : a ∈ Z := hp.mem_iff.mp haAV
      have h1 : b.timestamp ≤ a.timestamp := sortedDesc_head_bound hs hhd b hbAV
      have h2 : a.timestamp ≤ b.timestamp := hbmax a haZ
      have hts : a.timestamp = b.timestamp := le_antisymm h2 h1
      have hval : a.value = b.value := hsame a haZ b hbmem hts
      have hab : a = b := by
        cases a with
        | mk ta va =>
          cases b with
          | mk tb vb =>
            rw [CellVersion.mk.injEq]
            exact ⟨hts, hval⟩
      rw [hab]

/-
Claim C6: lemmas on the before-compaction reader.
-/

theorem lookupCol_mem {cols : List (String × Column)} {ck : String} {c : Column}
    (h : lookupCol cols ck = some c) : (ck, c) ∈ cols := by
  induction cols with
  | nil => simp [lookupCol] at h
  | cons p rest ih =>
    by_cases hk : p.1 = ck
    · simp only [lookupCol, if_pos hk] at h
      have hc : c = p.2 := (Option.some.inj h).symm
      have hp : (ck, c) = p := by rw [← hk, hc]
      rw [hp]
      exact List.mem_cons_self p rest
    · simp only [lookupCol, if_neg hk] at h
      exact List.mem_cons_of_mem _ (ih h)

theorem row_get_eq_head (r : Row) (family qualifier : String) :
    r.get family qualifier = (colVerss r (colKey family qualifier)).head? := by
  unfold Row.get colVerss
  cases lookupCol r.columns (colKey family qualifier) with
  | none => rfl
  | some c => rfl

theorem tableCand_eq_head (s : SSTable) (key family qualifier : String) :
    tableCand s key family qualifier
      = (tableVerss s key (colKey family qualifier)).head? := by
  unfold tableCand tableVerss rowsVerssAt
  cases s.rows.find? (fun r => r.key == key) with
  | none => rfl
  | some r => exact row_get_eq_head r family qualifier

theorem colVerss_sorted {r : Row} (hr : wfRow r) (ck : String) :
    sortedDesc (colVerss r ck) := by
  unfold colVerss
  cases h : lookupCol r.columns ck with
  | none => simp [sortedDesc]
  | some c => exact ((hr.2 (ck, c) (lookupCol_mem h)).2)

theorem tableVerss_sorted {s : SSTable} (hs : wfTable s) (key ck : String) :
    sortedDesc (tableVerss s key ck) := by
  unfold tableVerss rowsVerssAt
  cases h : s.rows.find? (fun r => r.key == key) with
  | none => simp [sortedDesc]
  | some r =>
    have hmem : r ∈ s.rows := List.mem_of_find?_eq_some h
    exact colVerss_sorted (hs.2 r hmem) ck

theorem firstMaxV_cons (v : CellVersion) (L : List CellVersion) :
    firstMaxV (v :: L) = combineCand (some v) (firstMaxV L) := by
  simp only [firstMaxV]
  cases h : firstMaxV L with
  | none => rfl
  | some b => rfl

theorem readTables_eq_firstMax (ts : List SSTable) (key family qualifier : String)
    (hwf : ∀ s ∈ ts, wfTable s) :
    readTables ts key family qualifier
      = firstMaxV (tablesVerss ts key (colKey family qualifier)) := by
  unfold readTables
  rw [pickBest_eq_firstMaxV]
  induction ts with
  | nil => rfl
  | cons s rest ih =>
    have hs : wfTable s := hwf s (List.mem_cons_self s rest)
    have hrest : ∀ x ∈ rest, wfTable x := fun x hx => hwf x (List.mem_cons_of_mem _ hx)
    have htv : tablesVerss (s :: rest) key (colKey family qualifier)
        = tableVerss s key (colKey family qualifier)
          ++ tablesVerss rest key (colKey family qualifier) := rfl
    rw [htv, firstMaxV_append]
    have hcand : tableCand s key family qualifier
        = firstMaxV (tableVerss s key (colKey family qualifier)) := by
      rw [tableCand_eq_head, firstMaxV_head_of_sorted (tableVerss_sorted hs key _)]
    cases hc : tableCand s key family qualifier with
    | none =>
      have hempty : tableVerss s key (colKey family qualifier) = [] := by
        rw [hc] at hcand
        exact (firstMaxV_eq_none_iff _).mp hcand.symm
      have hcands : candsOfTables (s :: rest) key family qualifier
          = candsOfTables rest key family qualifier := by
        simp [candsOfTables, hc]
      rw [hcands, ih hrest, hempty]
      simp [firstMaxV, combineCand]
    | some v =>
      have hcands : candsOfTables (s :: rest) key family qualifier
          = v :: candsOfTables rest key family qualifier := by
        simp [candsOfTables, hc]
      rw [hcands, firstMaxV_cons, ih hrest, ← hcand, hc]

/-
Claim C6: lemmas on the merge accumulator.
-/

theorem lookupCol_none_of_not_mem {cols : List (String × Column)} {ck : String}
    (h : ck ∉ cols.map Prod.fst) : lookupCol cols ck = none := by
  induction cols with
  | nil => rfl
  | cons p rest ih =>
    simp only [List.map_cons, List.mem_cons] at h
    push_neg at h
    have h1 : p.1 ≠ ck := Ne.symm h.1
    simp only [lookupCol, if_neg h1]
    exact ih h.2

theorem lookup_mergeOneCol_same (resort : List CellVersion → List CellVersion)
    (cols : List (String × Column)) (p : String × Column) :
    lookupCol (mergeOneCol resort cols p) p.1 =
      some (match lookupCol cols p.1 with
            | none => p.2
            | some c => { c with versions := resort (c.versions ++ p.2.versions) }) := by
  induction cols with
  | nil => simp [mergeOneCol, lookupCol]
  | cons q rest ih =>
    rcases q with ⟨k, c⟩
    by_cases hk : k = p.1
    · simp [mergeOneCol, lookupCol, hk]
    · simp only [mergeOneCol, if_neg hk, lookupCol, if_neg hk]
      exact ih

theorem lookup_mergeOneCol_other (resort : List CellVersion → List CellVersion)
    (cols : List (String × Column)) (p : String × Column)
    (ck : String) (hne : ck ≠ p.1) :
    lookupCol (mergeOneCol resort cols p) ck = lookupCol cols ck := by
  have hne2 : p.1 ≠ ck := Ne.symm hne
  induction cols with
  | nil => simp [mergeOneCol, lookupCol, hne2]
  | cons q rest ih =>
    rcases q with ⟨k, c⟩
    by_cases hk : k = p.1
    · subst hk
      simp [mergeOneCol, lookupCol, hne2]
    · by_cases hck : k = ck
      · subst hck
        simp [mergeOneCol, lookupCol, hne2, hk]
      · simp only [mergeOneCol, if_neg hk, lookupCol, if_neg hck]
        exact ih

theorem lookup_foldl_merge (resort : List CellVersion → List CellVersion)
    (scols : List (String × Column)) :
    ∀ dcols : List (String × Column), (scols.map Prod.fst).Nodup → ∀ ck : String,
    lookupCol (scols.foldl (mergeOneCol resort) dcols) ck =
      match lookupCol scols ck with
      | none => lookupCol dcols ck
      | some sc =>
        match lookupCol dcols ck with
        | none => some sc
        | some dc => some { dc with versions := resort (dc.versions ++ sc.versions) } := by
  induction scols with
  | nil => intro dcols _ ck; simp [lookupCol]
  | cons p ps ih =>
    intro dcols hnd ck
    simp only [List.map_cons, List.nodup_cons] at hnd
    have hfold : (p :: ps).foldl (mergeOneCol resort) dcols
        = ps.foldl (mergeOneCol resort) (mergeOneCol resort dcols p) := rfl
    rw [hfold, ih (mergeOneCol resort dcols p) hnd.2 ck]
    by_cases hck : ck = p.1
    · subst hck
      have hps : lookupCol ps p.1 = none :=
        lookupCol_none_of_not_mem (by simpa using hnd.1)
      rw [hps, lookup_mergeOneCol_same]
      have hfirst : lookupCol (p :: ps) p.1 = some p.2 := by
        rcases p with ⟨k, c⟩
        simp [lookupCol]
      rw [hfirst]
      cases lookupCol dcols p.1 <;> rfl
    · have hskip : lookupCol (p :: ps) ck = lookupCol ps ck := by
        rcases p with ⟨k, c⟩
        have : k ≠ ck := fun h => hck (h.symm)
        simp [lookupCol, this]
      rw [hskip, lookup_mergeOneCol_other resort dcols p ck hck]

theorem mergeRows_key (resort : List CellVersion → List CellVersion)
    (dest source : Row) : (mergeRows resort dest source).key = dest.key := rfl

theorem colVerss_mergeRows (resort : List CellVersion → List CellVersion)
    (dest source : Row)
    (hnd : (source.columns.map Prod.fst).Nodup) (ck : String) :
    colVerss (mergeRows resort dest source) ck =
      match lookupCol source.columns ck with
      | none => colVerss dest ck
      | some sc =>
        match lookupCol dest.columns ck with
        | none => sc.versions
        | some dc => resort (dc.versions ++ sc.versions) := by
  unfold mergeRows colVerss
  rw [lookup_foldl_merge resort source.columns dest.columns hnd ck]
  cases lookupCol source.columns ck with
  | none => rfl
  | some sc =>
    cases lookupCol dest.columns ck with
    | none => rfl
    | some dc => rfl

/-
Claim C6: find? behavior of the accumulator step.
-/

theorem find?_accumRow_other (resort : List CellVersion → List CellVersion)
    (acc : List Row) (r : Row) (k : String)
    (hne : k ≠ r.key) :
    (accumRow resort acc r).find? (fun x => x.key == k)
      = acc.find? (fun x => x.key == k) := by
  induction acc with
  | nil =>
    have hb : (r.key == k) = false := by
      simp [beq_iff_eq]
      exact fun h => hne h.symm
    simp [accumRow, List.find?, hb]
  | cons x rest ih =>
    by_cases hx : x.key = r.key
    · have hb : (x.key == k) = false := by
        simp [beq_iff_eq, hx]
        exact fun h => hne h.symm
      have hb2 : ((mergeRows resort x r).key == k) = false := by
        rw [mergeRows_key]
        exact hb
      simp [accumRow, if_pos hx, List.find?, hb, hb2]
    · by_cases hxk : x.key = k
      · simp [accumRow, if_neg hx, List.find?, hxk, hne]
      · have hb : (x.key == k) = false := by simp [beq_iff_eq, hxk]
        simp [accumRow, if_neg hx, List.find?, hb, ih]

theorem find?_accumRow_merge (resort : List CellVersion → List CellVersion)
    {acc : List Row} (r : Row) {x : Row}
    (hf : acc.find? (fun y => y.key == r.key) = some x) :
    (accumRow resort acc r).find? (fun y => y.key == r.key)
      = some (mergeRows resort x r) := by
  induction acc with
  | nil => simp [List.find?] at hf
  | cons z rest ih =>
    by_cases hz : z.key = r.key
    · have hb : (z.key == r.key) = true := by simp [beq_iff_eq, hz]
      simp only [List.find?, hb] at hf
      have hx : z = x := Option.some.inj hf
      subst hx
      have hb2 : ((mergeRows resort z r).key == r.key) = true := by
        rw [mergeRows_key]; exact hb
      simp [accumRow, if_pos hz, List.find?, hb2]
    · have hb : (z.key == r.key) = false := by simp [beq_iff_eq, hz]
      simp only [List.find?, hb] at hf
      simp [accumRow, if_neg hz, List.find?, hb, ih hf]

theorem find?_accumRow_new (resort : List CellVersion → List CellVersion)
    {acc : List Row} (r : Row)
    (hf : acc.find? (fun y => y.key == r.key) = none) :
    (accumRow resort acc r).find? (fun y => y.key == r.key) = some r := by
  induction acc with
  | nil => simp [accumRow, List.find?]
  | cons z rest ih =>
    by_cases hz : z.key = r.key
    · have hb : (z.key == r.key) = true := by simp [beq_iff_eq, hz]
      simp [List.find?, hb] at hf
    · have hb : (z.key == r.key) = false := by simp [beq_iff_eq, hz]
      simp only [List.find?, hb] at hf
      simp [accumRow, if_neg hz, List.find?, hb, ih hf]

/-
Claim C6: the accumulator invariant.
-/

theorem firstMaxV_optList (o : Option CellVersion) : firstMaxV (optList o) = o := by
  cases o <;> rfl

theorem combineCand_none_right (a : Option CellVersion) : combineCand a none = a := by
  cases a <;> rfl

theorem combineCand_assoc (a b c : Option CellVersion) :
    combineCand (combineCand a b) c = combineCand a (combineCand b c) := by
  conv_lhs => rw [← firstMaxV_optList a, ← firstMaxV_optList b, ← firstMaxV_append,
    ← firstMaxV_optList c, ← firstMaxV_append]
  conv_rhs => rw [← firstMaxV_optList b, ← firstMaxV_optList c, ← firstMaxV_append,
    ← firstMaxV_optList a, ← firstMaxV_append]
  rw [List.append_assoc]

theorem accumRow_verss (resort : List CellVersion → List CellVersion)
    (hres : validResort resort) (acc : List Row) (r : Row) (hr : wfRow r)
    (hsort : ∀ k ck, sortedDesc (rowsVerssAt acc k ck)) :
    (∀ k ck, sortedDesc (rowsVerssAt (accumRow resort acc r) k ck)) ∧
    (∀ k ck, (rowsVerssAt (accumRow resort acc r) k ck).Perm
      (rowsVerssAt acc k ck ++ (if r.key = k then colVerss r ck else []))) := by
  have main : ∀ k ck, sortedDesc (rowsVerssAt (accumRow resort acc r) k ck) ∧
      (rowsVerssAt (accumRow resort acc r) k ck).Perm
        (rowsVerssAt acc k ck ++ (if r.key = k then colVerss r ck else [])) := by
    intro k ck
    by_cases hk : r.key = k
    · subst hk
      rw [if_pos rfl]
      cases hf : acc.find? (fun y => y.key == r.key) with
      | some x =>
        have hacc : rowsVerssAt acc r.key ck = colVerss x ck := by
          unfold rowsVerssAt; rw [hf]
        have hv : rowsVerssAt (accumRow resort acc r) r.key ck
            = colVerss (mergeRows resort x r) ck := by
          unfold rowsVerssAt; rw [find?_accumRow_merge resort r hf]
        rw [hv, hacc, colVerss_mergeRows resort x r hr.1 ck]
        cases hsc : lookupCol r.columns ck with
        | none =>
          have hcr : colVerss r ck = [] := by unfold colVerss; rw [hsc]
          rw [hcr, List.append_nil]
          have hs : sortedDesc (colVerss x ck) := by rw [← hacc]; exact hsort r.key ck
          exact ⟨hs, List.Perm.refl _⟩
        | some sc =>
          have hcr : colVerss r ck = sc.versions := by unfold colVerss; rw [hsc]
          have hscs : sortedDesc sc.versions := by
            rw [← hcr]; exact colVerss_sorted hr ck
          cases hdc : lookupCol x.columns ck with
          | none =>
            have hcx : colVerss x ck = [] := by unfold colVerss; rw [hdc]
            rw [hcx, hcr, List.nil_append]
            exact ⟨hscs, List.Perm.refl _⟩
          | some dc =>
            have hcx : colVerss x ck = dc.versions := by unfold colVerss; rw [hdc]
            rw [hcx, hcr]
            exact ⟨(hres (dc.versions ++ sc.versions)).1,
              (hres (dc.versions ++ sc.versions)).2⟩
      | none =>
        have hacc : rowsVerssAt acc r.key ck = [] := by
          unfold rowsVerssAt; rw [hf]
        have hv : rowsVerssAt (accumRow resort acc r) r.key ck = colVerss r ck := by
          unfold rowsVerssAt; rw [find?_accumRow_new resort r hf]
        rw [hv, hacc, List.nil_append]
        exact ⟨colVerss_sorted hr ck, List.Perm.refl _⟩
    · have hkn : k ≠ r.key := fun h => hk h.symm
      have hv : rowsVerssAt (accumRow resort acc r) k ck = rowsVerssAt acc k ck := by
        unfold rowsVerssAt; rw [find?_accumRow_other resort acc r k hkn]
      rw [hv, if_neg hk, List.append_nil]
      exact ⟨hsort k ck, List.Perm.refl _⟩
  exact ⟨fun k ck => (main k ck).1, fun k ck => (main k ck).2⟩

theorem accum_fold (resort : List CellVersion → List CellVersion)
    (hres : validResort resort) (rows : List Row) :
    ∀ acc : List Row, (∀ r ∈ rows, wfRow r) →
    (∀ k ck, sortedDesc (rowsVerssAt acc k ck)) →
    (∀ k ck, sortedDesc (rowsVerssAt (rows.foldl (accumRow resort) acc) k ck)) ∧
    (∀ k ck, (rowsVerssAt (rows.foldl (accumRow resort) acc) k ck).Perm
      (rowsVerssAt acc k ck ++ rowListVerss rows k ck)) := by
  induction rows with
  | nil =>
    intro acc _ hsort
    refine ⟨fun k ck => hsort k ck, fun k ck => ?_⟩
    have h1 : rowListVerss [] k ck = [] := rfl
    rw [List.foldl_nil, h1, List.append_nil]
  | cons r rest ih =>
    intro acc hwf hsort
    have hr : wfRow r := hwf r (List.mem_cons_self r rest)
    have hrest : ∀ x ∈ rest, wfRow x := fun x hx => hwf x (List.mem_cons_of_mem _ hx)
    have hstep := accumRow_verss resort hres acc r hr hsort
    have hih := ih (accumRow resort acc r) hrest hstep.1
    have hfold : (r :: rest).foldl (accumRow resort) acc
        = rest.foldl (accumRow resort) (accumRow resort acc r) := rfl
    refine ⟨fun k ck => by rw [hfold]; exact hih.1 k ck, fun k ck => ?_⟩
    have hsplit : rowListVerss (r :: rest) k ck
        = (if r.key = k then colVerss r ck else []) ++ rowListVerss rest k ck := rfl
    rw [hfold, hsplit, ← List.append_assoc]
    exact (hih.2 k ck).trans ((hstep.2 k ck).append_right (rowListVerss rest k ck))

/-
Claim C6: flattening the two-level fold and relating the flattened
versions to the per-table versions.
-/

theorem compact_fold_flatten (resort : List CellVersion → List CellVersion)
    (inputs : List SSTable) :
    ∀ acc : List Row,
    inputs.foldl (fun acc s => s.rows.foldl (accumRow resort) acc) acc
      = (rowsOfTables inputs).foldl (accumRow resort) acc := by
  induction inputs with
  | nil => intro acc; rfl
  | cons s ts ih =>
    intro acc
    have h1 : rowsOfTables (s :: ts) = s.rows ++ rowsOfTables ts := rfl
    rw [h1, List.foldl_append]
    exact ih (s.rows.foldl (accumRow resort) acc)

theorem rowListVerss_append (xs ys : List Row) (k ck : String) :
    rowListVerss (xs ++ ys) k ck = rowListVerss xs k ck ++ rowListVerss ys k ck := by
  induction xs with
  | nil => rfl
  | cons r rest ih =>
    have h1 : rowListVerss (r :: (rest ++ ys)) k ck
        = (if r.key = k then colVerss r ck else []) ++ rowListVerss (rest ++ ys) k ck := rfl
    have h2 : rowListVerss (r :: rest) k ck
        = (if r.key = k then colVerss r ck else []) ++ rowListVerss rest k ck := rfl
    rw [List.cons_append, h1, ih, h2, List.append_assoc]

theorem rowListVerss_nil_of_absent {rows : List Row} {k : String}
    (h : ∀ x ∈ rows, x.key ≠ k) (ck : String) : rowListVerss rows k ck = [] := by
  induction rows with
  | nil => rfl
  | cons r rest ih =>
    have h1 : rowListVerss (r :: rest) k ck
        = (if r.key = k then colVerss r ck else []) ++ rowListVerss rest k ck := rfl
    rw [h1, if_neg (h r (List.mem_cons_self r rest)),
      ih (fun x hx => h x (List.mem_cons_of_mem _ hx))]
    rfl

theorem rowListVerss_eq_at {rows : List Row} (hnd : (rows.map Row.key).Nodup)
    (k ck : String) : rowListVerss rows k ck = rowsVerssAt rows k ck := by
  induction rows with
  | nil => rfl
  | cons r rest ih =>
    simp only [List.map_cons, List.nodup_cons] at hnd
    have h1 : rowListVerss (r :: rest) k ck
        = (if r.key = k then colVerss r ck else []) ++ rowListVerss rest k ck := rfl
    rw [h1]
    by_cases hk : r.key = k
    · have habs : ∀ x ∈ rest, x.key ≠ k := by
        intro x hx hcon
        exact hnd.1 (by rw [hk, ← hcon]; exact List.mem_map_of_mem Row.key hx)
      rw [if_pos hk, rowListVerss_nil_of_absent habs ck, List.append_nil]
      have hb : (r.key == k) = true := by simp [beq_iff_eq, hk]
      unfold rowsVerssAt
      simp [List.find?, hb]
    · have hb : (r.key == k) = false := by simp [beq_iff_eq, hk]
      rw [if_neg hk, List.nil_append, ih hnd.2]
      unfold rowsVerssAt
      simp [List.find?, hb]

theorem tablesVerss_eq_flat (ts : List SSTable)
    (hwf : ∀ s ∈ ts, (s.rows.map Row.key).Nodup) (k ck : String) :
    rowListVerss (rowsOfTables ts) k ck = tablesVerss ts k ck := by
  induction ts with
  | nil => rfl
  | cons s rest ih =>
    have h1 : rowsOfTables (s :: rest) = s.rows ++ rowsOfTables rest := rfl
    have h2 : tablesVerss (s :: rest) k ck
        = tableVerss s k ck ++ tablesVerss rest k ck := rfl
    rw [h1, h2, rowListVerss_append,
      ih (fun x hx => hwf x (List.mem_cons_of_mem _ hx)),
      rowListVerss_eq_at (hwf s (List.mem_cons_self s rest))]
    rfl

/-
Claim C6: key distinctness of the accumulator and find? transfer
through the final sort.
-/

theorem accumRow_key_mem (resort : List CellVersion → List CellVersion)
    {k : String} (r : Row) :
    ∀ {acc : List Row}, k ∈ (accumRow resort acc r).map Row.key →
      k ∈ acc.map Row.key ∨ k = r.key
  | [], h => by
    simp [accumRow] at h
    exact Or.inr h
  | x :: rest, h => by
    by_cases hx : x.key = r.key
    · simp only [accumRow, if_pos hx, List.map_cons, List.mem_cons, mergeRows_key] at h
      rcases h with h | h
      · exact Or.inl (by simp [h])
      · exact Or.inl (by simp [h])
    · simp only [accumRow, if_neg hx, List.map_cons, List.mem_cons] at h
      rcases h with h | h
      · exact Or.inl (by simp [h])
      · rcases accumRow_key_mem resort r h with h2 | h2
        · exact Or.inl (by simp [h2])
        · exact Or.inr h2

theorem accumRow_keys_nodup (resort : List CellVersion → List CellVersion) (r : Row) :
    ∀ {acc : List Row}, (acc.map Row.key).Nodup →
      ((accumRow resort acc r).map Row.key).Nodup
  | [], _ => by simp [accumRow]
  | x :: rest, hnd => by
    simp only [List.map_cons, List.nodup_cons] at hnd
    by_cases hx : x.key = r.key
    · simp only [accumRow, if_pos hx, List.map_cons, List.nodup_cons, mergeRows_key]
      exact hnd
    · simp only [accumRow, if_neg hx, List.map_cons, List.nodup_cons]
      refine ⟨?_, accumRow_keys_nodup resort r hnd.2⟩
      intro hcon
      rcases accumRow_key_mem resort r hcon with h2 | h2
      · exact hnd.1 h2
      · exact hx h2

theorem foldl_accumRow_keys_nodup (resort : List CellVersion → List CellVersion)
    (rows : List Row) :
    ∀ {acc : List Row}, (acc.map Row.key).Nodup →
      ((rows.foldl (accumRow resort) acc).map Row.key).Nodup := by
  induction rows with
  | nil => intro acc h; exact h
  | cons r rest ih => intro acc h; exact ih (accumRow_keys_nodup resort r h)

theorem insertRowByKey_perm (r : Row) (rows : List Row) :
    (insertRowByKey r rows).Perm (r :: rows) := by
  induction rows with
  | nil => exact List.Perm.refl _
  | cons x rest ih =>
    by_cases h : keyLt r.key x.key
    · simp only [insertRowByKey, if_pos h]
      exact List.Perm.refl _
    · simp only [insertRowByKey, if_neg h]
      exact (List.Perm.cons x ih).trans (List.Perm.swap r x rest)

theorem sortRowsByKey_perm (rows : List Row) : (sortRowsByKey rows).Perm rows := by
  induction rows with
  | nil => exact List.Perm.refl _
  | cons x rest ih =>
    have h1 : sortRowsByKey (x :: rest) = insertRowByKey x (sortRowsByKey rest) := rfl
    rw [h1]
    exact (insertRowByKey_perm x (sortRowsByKey rest)).trans (List.Perm.cons x ih)

theorem find?_key_of_mem_nodup {rows : List Row} {r : Row} {k : String}
    (hnd : (rows.map Row.key).Nodup) (hmem : r ∈ rows) (hk : r.key = k) :
    rows.find? (fun x => x.key == k) = some r := by
  induction rows with
  | nil => simp at hmem
  | cons x rest ih =>
    simp only [List.map_cons, List.nodup_cons] at hnd
    rcases List.mem_cons.mp hmem with h | h
    · subst h
      have hb : (r.key == k) = true := by simp [beq_iff_eq, hk]
      simp [List.find?, hb]
    · have hxk : x.key ≠ k := by
        intro hcon
        exact hnd.1 (by rw [hcon, ← hk]; exact List.mem_map_of_mem Row.key h)
      have hb : (x.key == k) = false := by simp [beq_iff_eq, hxk]
      simp only [List.find?, hb]
      exact ih hnd.2 h

theorem find?_key_perm {l1 l2 : List Row} (hperm : l1.Perm l2)
    (hnd : (l2.map Row.key).Nodup) (k : String) :
    l1.find? (fun x => x.key == k) = l2.find? (fun x => x.key == k) := by
  have hnd1 : (l1.map Row.key).Nodup := ((hperm.map Row.key).nodup_iff).mpr hnd
  cases h2 : l2.find? (fun x => x.key == k) with
  | some r =>
    have hmem : r ∈ l2 := List.mem_of_find?_eq_some h2
    have hk : r.key = k := by
      have := List.find?_some h2
      simpa [beq_iff_eq] using this
    exact find?_key_of_mem_nodup hnd1 (hperm.mem_iff.mpr hmem) hk
  | none =>
    rw [List.find?_eq_none] at h2 ⊢
    intro x hx
    exact h2 x (hperm.mem_iff.mp hx)

theorem rowsVerssAt_sortRowsByKey {rows : List Row}
    (hnd : (rows.map Row.key).Nodup) (k ck : String) :
    rowsVerssAt (sortRowsByKey rows) k ck = rowsVerssAt rows k ck := by
  unfold rowsVerssAt
  rw [find?_key_perm (sortRowsByKey_perm rows) hnd k]

/-
Claim C6: the insertion sort of Compact produces key-ascending output.
-/

theorem insertRowByKey_mem {r x : Row} :
    ∀ {rows : List Row}, x ∈ insertRowByKey r rows → x ∈ rows ∨ x = r
  | [], h => by
    simp [insertRowByKey] at h
    exact Or.inr h
  | y :: rest, h => by
    by_cases hy : keyLt r.key y.key
    · simp only [insertRowByKey, if_pos hy, List.mem_cons] at h
      rcases h with h | h | h
      · exact Or.inr h
      · exact Or.inl (by simp [h])
      · exact Or.inl (List.mem_cons_of_mem _ h)
    · simp only [insertRowByKey, if_neg hy, List.mem_cons] at h
      rcases h with h | h
      · exact Or.inl (by simp [h])
      · rcases insertRowByKey_mem h with h2 | h2
        · exact Or.inl (List.mem_cons_of_mem _ h2)
        · exact Or.inr h2

theorem insertRowByKey_pairwise (r : Row) :
    ∀ {rows : List Row},
      rows.Pairwise (fun a b => keyLt b.key a.key = false) →
      (insertRowByKey r rows).Pairwise (fun a b => keyLt b.key a.key = false)
  | [], _ => by simp [insertRowByKey]
  | x :: rest, h => by
    rcases List.pairwise_cons.mp h with ⟨hx, hrest⟩
    by_cases hy : keyLt r.key x.key
    · simp only [insertRowByKey, if_pos hy]
      refine List.pairwise_cons.mpr ⟨?_, h⟩
      intro z hz
      rcases List.mem_cons.mp hz with hz | hz
      · subst hz
        exact keyLt_asymm hy
      · by_cases hzr : keyLt z.key r.key = true
        · have hzx : keyLt z.key x.key = true := keyLt_trans hzr hy
          rw [hx z hz] at hzx
          exact absurd hzx (by simp)
        · exact Bool.eq_false_iff.mpr hzr
    · simp only [insertRowByKey, if_neg hy]
      refine List.pairwise_cons.mpr ⟨?_, insertRowByKey_pairwise r hrest⟩
      intro z hz
      rcases insertRowByKey_mem hz with h2 | h2
      · exact hx z h2
      · subst h2
        exact Bool.eq_false_iff.mpr hy

theorem sortRowsByKey_pairwise (rows : List Row) :
    (sortRowsByKey rows).Pairwise (fun a b => keyLt b.key a.key = false) := by
  induction rows with
  | nil => simp [sortRowsByKey]
  | cons x rest ih => exact insertRowByKey_pairwise x ih

/-
Claim C6: assembly.
-/

theorem mem_rowsOfTables {r : Row} :
    ∀ {ts : List SSTable}, r ∈ rowsOfTables ts → ∃ s ∈ ts, r ∈ s.rows
  | [], h => by simp [rowsOfTables] at h
  | s :: rest, h => by
    have h1 : rowsOfTables (s :: rest) = s.rows ++ rowsOfTables rest := rfl
    rw [h1, List.mem_append] at h
    rcases h with h | h
    · exact ⟨s, List.mem_cons_self s rest, h⟩
    · rcases mem_rowsOfTables h with ⟨t, ht, hrt⟩
      exact ⟨t, List.mem_cons_of_mem _ ht, hrt⟩

theorem readTables_single (s : SSTable) (key family qualifier : String) :
    readTables [s] key family qualifier = tableCand s key family qualifier := by
  unfold readTables candsOfTables
  cases h : tableCand s key family qualifier with
  | none => simp [h, pickBest]
  | some v => simp [h, pickBest]

theorem mem_rowsVerssAt {x : CellVersion} {rows : List Row} {key ck : String}
    (h : x ∈ rowsVerssAt rows key ck) :
    ∃ r ∈ rows, r.key = key ∧ ∃ p ∈ r.columns, p.1 = ck ∧ x ∈ p.2.versions := by
  cases hf : rows.find? (fun r => r.key == key) with
  | none =>
    have he : rowsVerssAt rows key ck = [] := by
      unfold rowsVerssAt; rw [hf]
    rw [he] at h
    simp at h
  | some r =>
    have he : rowsVerssAt rows key ck = colVerss r ck := by
      unfold rowsVerssAt; rw [hf]
    rw [he] at h
    have hmem : r ∈ rows := List.mem_of_find?_eq_some hf
    have hkey : r.key = key := by simpa [beq_iff_eq] using List.find?_some hf
    cases hc : lookupCol r.columns ck with
    | none =>
      have he2 : colVerss r ck = [] := by unfold colVerss; rw [hc]
      rw [he2] at h
      simp at h
    | some c =>
      have he2 : colVerss r ck = c.versions := by unfold colVerss; rw [hc]
      rw [he2] at h
      exact ⟨r, hmem, hkey, (ck, c), lookupCol_mem hc, rfl, h⟩

theorem mem_tablesVerss {x : CellVersion} {key ck : String} :
    ∀ {ts : List SSTable}, x ∈ tablesVerss ts key ck →
      ∃ s ∈ ts, x ∈ rowsVerssAt s.rows key ck
  | [], h => by simp [tablesVerss] at h
  | s :: rest, h => by
    have h1 : tablesVerss (s :: rest) key ck
        = tableVerss s key ck ++ tablesVerss rest key ck := rfl
    rw [h1, List.mem_append] at h
    rcases h with h | h
    · exact ⟨s, List.mem_cons_self s rest, h⟩
    · rcases mem_tablesVerss h with ⟨t, ht, hx⟩
      exact ⟨t, List.mem_cons_of_mem _ ht, hx⟩

theorem tiesSameValue_at {ts : List SSTable} (h : tiesSameValue ts) (key ck : String)
    {x y : CellVersion} (hx : x ∈ tablesVerss ts key ck) (hy : y ∈ tablesVerss ts key ck)
    (hts : x.timestamp = y.timestamp) : x.value = y.value := by
  rcases mem_tablesVerss hx with ⟨s1, hs1, hx1⟩
  rcases mem_rowsVerssAt hx1 with ⟨r1, hr1, hk1, p1, hp1, hck1, hv1⟩
  rcases mem_tablesVerss hy with ⟨s2, hs2, hy1⟩
  rcases mem_rowsVerssAt hy1 with ⟨r2, hr2, hk2, p2, hp2, hck2, hv2⟩
  exact h s1 hs1 r1 hr1 p1 hp1 x hv1 s2 hs2 r2 hr2 p2 hp2 y hv2
    (by rw [hk1, hk2]) (by rw [hck1, hck2]) hts

/-- Claim C6: Compact merges rows by key (adopting new keys, and for
shared keys concatenating each column's version sequences and
re-sorting by timestamp descending), writes the output in ascending key
order, and for every cell address the latest version readable from the
compacted output equals the latest version readable from the inputs.
The version re-sort is quantified over every function satisfying the
sort.Slice contract (a timestamp-descending reordering, equal-timestamp
order unspecified), so the conclusion covers whatever order the library
picks.  The inputs are well formed as flush and compaction write them
(distinct row keys per file, distinct column entries keyed by
family:qualifier, version lists sorted descending), and equal-timestamp
versions of one cell address carry one value — the specification's
proviso; at a conflicting tie the value read after compaction would
depend on the unspecified equal-timestamp order. -/
theorem c6_compact_preserves_latest
    (resort : List CellVersion → List CellVersion) (inputs : List SSTable)
    (hres : validResort resort)
    (hwf : ∀ s ∈ inputs, wfTable s)
    (hties : tiesSameValue inputs) :
    (compact resort inputs).rows.Pairwise (fun a b => keyLt b.key a.key = false) ∧
    ∀ key family qualifier,
      readTables [compact resort inputs] key family qualifier
        = readTables inputs key family qualifier := by
  have hrows : ∀ r ∈ rowsOfTables inputs, wfRow r := by
    intro r hr
    rcases mem_rowsOfTables hr with ⟨s, hs, hrs⟩
    exact (hwf s hs).2 r hrs
  have hbase : ∀ k ck, sortedDesc (rowsVerssAt ([] : List Row) k ck) := by
    intro k ck
    simp [rowsVerssAt, List.find?, sortedDesc]
  have hfold := accum_fold resort hres (rowsOfTables inputs) [] hrows hbase
  have hnodup : (((rowsOfTables inputs).foldl (accumRow resort) []).map Row.key).Nodup :=
    foldl_accumRow_keys_nodup resort (rowsOfTables inputs) (by simp)
  have hcompact : compact resort inputs
      = ⟨sortRowsByKey ((rowsOfTables inputs).foldl (accumRow resort) [])⟩ := by
    unfold compact
    rw [compact_fold_flatten resort inputs []]
  constructor
  · rw [hcompact]
    exact sortRowsByKey_pairwise _
  · intro key family qualifier
    rw [readTables_single, tableCand_eq_head]
    have htv : tableVerss (compact resort inputs) key (colKey family qualifier)
        = rowsVerssAt ((rowsOfTables inputs).foldl (accumRow resort) [])
            key (colKey family qualifier) := by
      rw [hcompact]
      exact rowsVerssAt_sortRowsByKey hnodup key (colKey family qualifier)
    rw [htv, readTables_eq_firstMax inputs key family qualifier hwf]
    have hperm := hfold.2 key (colKey family qualifier)
    rw [show rowsVerssAt ([] : List Row) key (colKey family qualifier) = [] from rfl,
      List.nil_append,
      tablesVerss_eq_flat inputs (fun s hs => (hwf s hs).1) key (colKey family qualifier)]
      at hperm
    exact head_of_sorted_perm (hfold.1 key (colKey family qualifier)) hperm
      (fun x hx y hy hts => tiesSameValue_at hties key (colKey family qualifier) hx hy hts)

/-- Witness for C6 at two concrete sstables sharing key k at distinct
timestamps, with the executable first-come-first instance of the
sort.Slice contract standing in for the resort argument. -/
theorem c6_witness :
    validResort sortVersionsDesc ∧
    (∀ s ∈ [sstA, sstD], wfTable s) ∧
    tiesSameValue [sstA, sstD] ∧
    ((compact sortVersionsDesc [sstA, sstD]).rows.Pairwise
      (fun a b => keyLt b.key a.key = false) ∧
    ∀ key family qualifier,
      readTables [compact sortVersionsDesc [sstA, sstD]] key family qualifier
        = readTables [sstA, sstD] key family qualifier) :=
  ⟨validResort_sortVersionsDesc, by decide, by decide,
    c6_compact_preserves_latest sortVersionsDesc [sstA, sstD]
      validResort_sortVersionsDesc (by decide) (by decide)⟩

/-
Claim C7: counting machinery for content preservation.
-/

theorem countV_insertVersion (vs : List CellVersion) (nv : CellVersion)
    (ts : Int) (v : Bytes) :
    countV (insertVersion vs nv) ts v
      = countV vs ts v + (if nv.timestamp = ts ∧ nv.value = v then 1 else 0) := by
  induction vs with
  | nil => simp [insertVersion, countV]
  | cons w rest ih =>
    by_cases h : w.timestamp ≤ nv.timestamp
    · simp only [insertVersion, if_pos h, countV]
      omega
    · simp only [insertVersion, if_neg h, countV, ih]
      omega

theorem colsCount_insertIntoCols (cols : List (String × Column)) (f q : String)
    (now ts : Int) (v : Bytes) (ck : String) (ts2 : Int) (v2 : Bytes) :
    colsCount (insertIntoCols cols f q now ts v) ck ts2 v2
      = colsCount cols ck ts2 v2 +
        (if colKey f q = ck ∧ stampTs now ts = ts2 ∧ v = v2 then 1 else 0) := by
  induction cols with
  | nil =>
    by_cases hck : colKey f q = ck
    · simp [insertIntoCols, colsCount, countV, Column.new, Column.insert,
        insertVersion, hck]
    · simp [insertIntoCols, colsCount, Column.new, Column.insert, hck]
  | cons p rest ih =>
    rcases p with ⟨k, c⟩
    have hcons : ∀ (kk : String) (cc : Column) (z : List (String × Column)),
        colsCount ((kk, cc) :: z) ck ts2 v2
          = (if kk = ck then countV cc.versions ts2 v2 else 0) + colsCount z ck ts2 v2 :=
      fun kk cc z => rfl
    by_cases hk : k = colKey f q
    · have h1 : insertIntoCols ((k, c) :: rest) f q now ts v
          = (k, c.insert now ts v) :: rest := by
        simp only [insertIntoCols]
        rw [if_pos hk]
      rw [h1, hcons, hcons]
      have h2 : (c.insert now ts v).versions
          = insertVersion c.versions ⟨stampTs now ts, v⟩ := rfl
      by_cases hck : k = ck
      · rw [if_pos hck, if_pos hck, h2, countV_insertVersion]
        have hfq : colKey f q = ck := by rw [← hk, hck]
        have hiff : (if colKey f q = ck ∧ stampTs now ts = ts2 ∧ v = v2 then 1 else 0)
            = (if (CellVersion.mk (stampTs now ts) v).timestamp = ts2 ∧
                (CellVersion.mk (stampTs now ts) v).value = v2 then (1 : Nat) else 0) := by
          by_cases hiv : stampTs now ts = ts2 ∧ v = v2
          · rw [if_pos ⟨hfq, hiv⟩, if_pos hiv]
          · rw [if_neg (fun hcon => hiv hcon.2), if_neg hiv]
        rw [hiff]
        omega
      · rw [if_neg hck, if_neg hck]
        have hfq : ¬ (colKey f q = ck ∧ stampTs now ts = ts2 ∧ v = v2) := by
          intro hcon
          exact hck (by rw [hk, hcon.1])
        rw [if_neg hfq]
        omega
    · have h1 : insertIntoCols ((k, c) :: rest) f q now ts v
          = (k, c) :: insertIntoCols rest f q now ts v := by
        simp only [insertIntoCols]
        rw [if_neg hk]
      rw [h1, hcons, hcons, ih]
      omega

theorem cellCount_applyOps (ops : List MutationOperation)
    (hset : ∀ op ∈ ops, op.type = .set) :
    ∀ (r : Row) (now ts : Int) (ck : String) (v : Bytes),
    (r.applyOps ops now).cellCount ck ts v
      = r.cellCount ck ts v + opsCount ops ck ts v now := by
  induction ops with
  | nil => intro r now ts ck v; simp [Row.applyOps, opsCount]
  | cons op rest ih =>
    intro r now ts ck v
    have hop : op.type = .set := hset op (List.mem_cons_self op rest)
    have hrest : ∀ x ∈ rest, x.type = .set := fun x hx => hset x (List.mem_cons_of_mem _ hx)
    have h1 : r.applyOps (op :: rest) now = (r.applyOp op now).applyOps rest now := rfl
    have h2 : r.applyOp op now
        = r.setInternal op.family op.qualifier op.timestamp op.value now := by
      unfold Row.applyOp
      rw [hop]
    have h3 : opsCount (op :: rest) ck ts v now
        = (if op.type = .set ∧ colKey op.family op.qualifier = ck ∧
            stampTs now op.timestamp = ts ∧ op.value = v then 1 else 0)
          + opsCount rest ck ts v now := rfl
    rw [h1, h2, ih hrest, h3]
    have h4 : (r.setInternal op.family op.qualifier op.timestamp op.value now).cellCount ck ts v
        = r.cellCount ck ts v +
          (if colKey op.family op.qualifier = ck ∧
            stampTs now op.timestamp = ts ∧ op.value = v then 1 else 0) :=
      colsCount_insertIntoCols r.columns op.family op.qualifier now op.timestamp op.value ck ts v
    rw [h4, hop]
    simp only [true_and]
    omega

theorem rowsCellCount_cons (r : Row) (rows : List Row) (key ck : String)
    (ts : Int) (v : Bytes) :
    rowsCellCount (r :: rows) key ck ts v
      = (if r.key = key then r.cellCount ck ts v else 0) + rowsCellCount rows key ck ts v := rfl

theorem cellCount_rowNew (k ck : String) (ts : Int) (v : Bytes) :
    (Row.new k).cellCount ck ts v = 0 := rfl

theorem rowsCellCount_applyToRows (m : RowMutation)
    (hset : ∀ op ∈ m.ops, op.type = .set) :
    ∀ (rows : List Row) (now ts : Int) (key ck : String) (v : Bytes),
    rowsCellCount (applyToRows rows m now) key ck ts v
      = rowsCellCount rows key ck ts v +
        (if m.rowKey = key then opsCount m.ops ck ts v now else 0) := by
  intro rows
  induction rows with
  | nil =>
    intro now ts key ck v
    have hkey : ((Row.new m.rowKey).applyOps m.ops now).key = m.rowKey :=
      Row.applyOps_key m.ops (Row.new m.rowKey) now
    have h1 : applyToRows [] m now = [(Row.new m.rowKey).applyOps m.ops now] := rfl
    rw [h1, rowsCellCount_cons, hkey]
    by_cases hk : m.rowKey = key
    · rw [if_pos hk, if_pos hk, cellCount_applyOps m.ops hset, cellCount_rowNew]
      omega
    · rw [if_neg hk, if_neg hk]
      omega
  | cons r rest ih =>
    intro now ts key ck v
    by_cases hr : r.key = m.rowKey
    · have h1 : applyToRows (r :: rest) m now = r.applyOps m.ops now :: rest := by
        unfold applyToRows
        rw [if_pos hr]
      have hkey : (r.applyOps m.ops now).key = r.key := Row.applyOps_key m.ops r now
      rw [h1, rowsCellCount_cons, rowsCellCount_cons, hkey]
      by_cases hk : r.key = key
      · have hmk : m.rowKey = key := by rw [← hr, hk]
        rw [if_pos hk, if_pos hk, if_pos hmk, cellCount_applyOps m.ops hset]
        omega
      · have hmk : ¬ m.rowKey = key := by rw [← hr]; exact hk
        rw [if_neg hk, if_neg hk, if_neg hmk]
        omega
    · by_cases hlt : keyLt m.rowKey r.key
      · have h1 : applyToRows (r :: rest) m now
            = (Row.new m.rowKey).applyOps m.ops now :: r :: rest := by
          simp only [applyToRows]
          rw [if_neg hr, if_pos hlt]
        have hkey : ((Row.new m.rowKey).applyOps m.ops now).key = m.rowKey :=
          Row.applyOps_key m.ops (Row.new m.rowKey) now
        rw [h1, rowsCellCount_cons, hkey, rowsCellCount_cons]
        by_cases hk : m.rowKey = key
        · rw [if_pos hk, if_pos hk, cellCount_applyOps m.ops hset, cellCount_rowNew]
          omega
        · rw [if_neg hk, if_neg hk]
          omega
      · have h1 : applyToRows (r :: rest) m now = r :: applyToRows rest m now := by
          simp only [applyToRows]
          rw [if_neg hr, if_neg hlt]
        rw [h1, rowsCellCount_cons, rowsCellCount_cons, ih now ts key ck v]
        omega

/-
Claim C7: the reconstructed mutation of a row carries exactly the
row's cells.
-/

theorem rowToMutation_ops_set (r : Row) :
    ∀ op ∈ (rowToMutation r).ops, op.type = .set := by
  intro op hop
  unfold rowToMutation at hop
  simp only [List.mem_flatten, List.mem_map] at hop
  rcases hop with ⟨l, ⟨p, _, hl⟩, hol⟩
  subst hl
  simp only [List.mem_map] at hol
  rcases hol with ⟨ver, _, hop2⟩
  rw [← hop2]

theorem opsCount_append (xs ys : List MutationOperation) (ck : String) (ts : Int)
    (v : Bytes) (now : Int) :
    opsCount (xs ++ ys) ck ts v now = opsCount xs ck ts v now + opsCount ys ck ts v now := by
  induction xs with
  | nil => simp [opsCount]
  | cons op rest ih =>
    have h1 : ∀ z : List MutationOperation, opsCount (op :: z) ck ts v now
        = (if op.type = .set ∧ colKey op.family op.qualifier = ck ∧
            stampTs now op.timestamp = ts ∧ op.value = v then 1 else 0)
          + opsCount z ck ts v now := fun z => rfl
    rw [List.cons_append, h1, h1, ih]
    omega

theorem opsCount_versions (vers : List CellVersion) (fam qual : String)
    (hnz : ∀ ver ∈ vers, ver.timestamp ≠ 0) (ck : String) (ts : Int) (v : Bytes)
    (now : Int) :
    opsCount (vers.map (fun ver =>
        MutationOperation.mk .set fam qual ver.timestamp ver.value)) ck ts v now
      = (if colKey fam qual = ck then countV vers ts v else 0) := by
  induction vers with
  | nil => by_cases h : colKey fam qual = ck <;> simp [opsCount, countV, h]
  | cons ver rest ih =>
    have hnzv : ver.timestamp ≠ 0 := hnz ver (List.mem_cons_self ver rest)
    have hrest : ∀ x ∈ rest, x.timestamp ≠ 0 :=
      fun x hx => hnz x (List.mem_cons_of_mem _ hx)
    have hstamp : stampTs now ver.timestamp = ver.timestamp := by
      unfold stampTs
      rw [if_neg hnzv]
    have hcons : opsCount ((ver :: rest).map (fun w =>
          MutationOperation.mk .set fam qual w.timestamp w.value)) ck ts v now
        = (if MutationType.set = MutationType.set ∧ colKey fam qual = ck ∧
            stampTs now ver.timestamp = ts ∧ ver.value = v then 1 else 0)
          + opsCount (rest.map (fun w =>
              MutationOperation.mk .set fam qual w.timestamp w.value)) ck ts v now := rfl
    rw [hcons, ih hrest, hstamp]
    by_cases hk : colKey fam qual = ck
    · have hiff : (if MutationType.set = MutationType.set ∧ colKey fam qual = ck ∧
          ver.timestamp = ts ∧ ver.value = v then 1 else 0)
          = (if ver.timestamp = ts ∧ ver.value = v then (1 : Nat) else 0) := by
        by_cases hvv : ver.timestamp = ts ∧ ver.value = v
        · rw [if_pos ⟨rfl, hk, hvv⟩, if_pos hvv]
        · rw [if_neg (fun hcon => hvv hcon.2.2), if_neg hvv]
      have hcv : countV (ver :: rest) ts v
          = (if ver.timestamp = ts ∧ ver.value = v then 1 else 0) + countV rest ts v := rfl
      rw [hiff, if_pos hk, if_pos hk, hcv]
    · have hiff : (if MutationType.set = MutationType.set ∧ colKey fam qual = ck ∧
          ver.timestamp = ts ∧ ver.value = v then 1 else 0) = (0 : Nat) := by
        rw [if_neg (fun hcon => hk hcon.2.1)]
      rw [hiff, if_neg hk, if_neg hk]

theorem opsCount_rowToMutation (r : Row)
    (hwfc : ∀ p ∈ r.columns, p.1 = colKey p.2.family p.2.qualifier)
    (hnz : ∀ p ∈ r.columns, ∀ ver ∈ p.2.versions, ver.timestamp ≠ 0)
    (ck : String) (ts : Int) (v : Bytes) (now : Int) :
    opsCount (rowToMutation r).ops ck ts v now = r.cellCount ck ts v := by
  have hmain : ∀ cols : List (String × Column),
      (∀ p ∈ cols, p.1 = colKey p.2.family p.2.qualifier) →
      (∀ p ∈ cols, ∀ ver ∈ p.2.versions, ver.timestamp ≠ 0) →
      opsCount ((cols.map (fun p => p.2.versions.map (fun ver =>
          MutationOperation.mk .set p.2.family p.2.qualifier
            ver.timestamp ver.value))).flatten) ck ts v now
        = colsCount cols ck ts v := by
    intro cols
    induction cols with
    | nil => intro _ _; rfl
    | cons p rest ih =>
      intro hw hn
      have hw1 := hw p (List.mem_cons_self p rest)
      have hn1 := hn p (List.mem_cons_self p rest)
      have hwr : ∀ x ∈ rest, x.1 = colKey x.2.family x.2.qualifier :=
        fun x hx => hw x (List.mem_cons_of_mem _ hx)
      have hnr : ∀ x ∈ rest, ∀ ver ∈ x.2.versions, ver.timestamp ≠ 0 :=
        fun x hx => hn x (List.mem_cons_of_mem _ hx)
      have hflat : ((p :: rest).map (fun p => p.2.versions.map (fun ver =>
          MutationOperation.mk .set p.2.family p.2.qualifier
            ver.timestamp ver.value))).flatten
          = p.2.versions.map (fun ver => MutationOperation.mk .set p.2.family
              p.2.qualifier ver.timestamp ver.value)
            ++ ((rest.map (fun p => p.2.versions.map (fun ver =>
                MutationOperation.mk .set p.2.family p.2.qualifier
                  ver.timestamp ver.value))).flatten) := by
        simp
      rw [hflat, opsCount_append, ih hwr hnr,
        opsCount_versions p.2.versions p.2.family p.2.qualifier hn1, ← hw1]
      have hcc : colsCount (p :: rest) ck ts v
          = (if p.1 = ck then countV p.2.versions ts v else 0)
            + colsCount rest ck ts v := rfl
      rw [hcc]
  exact hmain r.columns hwfc hnz

/-
Claim C7: key membership and field preservation of the child update.
-/

theorem hasKey_iff_mem_map (rows : List Row) (key : String) :
    hasKey rows key ↔ key ∈ rows.map Row.key := by
  unfold hasKey
  constructor
  · rintro ⟨r, hr, hk⟩
    rw [← hk]
    exact List.mem_map_of_mem Row.key hr
  · intro h
    rcases List.mem_map.mp h with ⟨r, hr, hk⟩
    exact ⟨r, hr, hk⟩

theorem applyToRows_keys (m : RowMutation) :
    ∀ (rows : List Row) (now : Int) (key : String),
    key ∈ (applyToRows rows m now).map Row.key ↔
      key ∈ rows.map Row.key ∨ m.rowKey = key := by
  intro rows
  have hkeynew : ∀ now : Int, ((Row.new m.rowKey).applyOps m.ops now).key = m.rowKey :=
    fun now => Row.applyOps_key m.ops (Row.new m.rowKey) now
  induction rows with
  | nil =>
    intro now key
    have h1 : applyToRows [] m now = [(Row.new m.rowKey).applyOps m.ops now] := rfl
    rw [h1]
    simp only [List.map_cons, List.map_nil, List.mem_cons, List.not_mem_nil,
      or_false, false_or, hkeynew now]
    exact eq_comm
  | cons r rest ih =>
    intro now key
    by_cases hr : r.key = m.rowKey
    · have h1 : applyToRows (r :: rest) m now = r.applyOps m.ops now :: rest := by
        simp only [applyToRows]
        rw [if_pos hr]
      rw [h1]
      simp only [List.map_cons, List.mem_cons, Row.applyOps_key m.ops r now]
      constructor
      · rintro (h | h)
        · exact Or.inl (Or.inl h)
        · exact Or.inl (Or.inr h)
      · rintro ((h | h) | h)
        · exact Or.inl h
        · exact Or.inr h
        · exact Or.inl (by rw [← h, hr])
    · by_cases hlt : keyLt m.rowKey r.key
      · have h1 : applyToRows (r :: rest) m now
            = (Row.new m.rowKey).applyOps m.ops now :: r :: rest := by
          simp only [applyToRows]
          rw [if_neg hr, if_pos hlt]
        rw [h1]
        simp only [List.map_cons, List.mem_cons, hkeynew now]
        constructor
        · rintro (h | h | h)
          · exact Or.inr h.symm
          · exact Or.inl (Or.inl h)
          · exact Or.inl (Or.inr h)
        · rintro ((h | h) | h)
          · exact Or.inr (Or.inl h)
          · exact Or.inr (Or.inr h)
          · exact Or.inl h.symm
      · have h1 : applyToRows (r :: rest) m now = r :: applyToRows rest m now := by
          simp only [applyToRows]
          rw [if_neg hr, if_neg hlt]
        rw [h1]
        simp only [List.map_cons, List.mem_cons, ih now key]
        tauto

theorem childMutate_fields (c : Tablet) (m : RowMutation) (now : Int) :
    (childMutate c m now).startKey = c.startKey ∧
    (childMutate c m now).endKey = c.endKey ∧
    (childMutate c m now).sstables = c.sstables := by
  unfold childMutate Tablet.mutate
  by_cases h : c.inRange m.rowKey = true
  · simp [h, CommitLog.append]
  · simp [h]

theorem childMutate_rows (c : Tablet) (m : RowMutation) (now : Int)
    (h : c.inRange m.rowKey = true) :
    (childMutate c m now).mem.rows = applyToRows c.mem.rows m now := by
  unfold childMutate Tablet.mutate
  simp [h, CommitLog.append, MemTable.apply]

/-
Claim C7: transfer lemmas for the sorted row list.
-/

theorem inRange_congr (a b : Tablet) (hs : a.startKey = b.startKey)
    (he : a.endKey = b.endKey) (key : String) : a.inRange key = b.inRange key := by
  unfold Tablet.inRange
  rw [hs, he]

theorem rowsCellCount_eq_sum (rows : List Row) (key ck : String) (ts : Int) (v : Bytes) :
    rowsCellCount rows key ck ts v
      = (rows.map (fun r => if r.key = key then r.cellCount ck ts v else 0)).sum := by
  induction rows with
  | nil => rfl
  | cons r rest ih =>
    rw [rowsCellCount_cons, List.map_cons, List.sum_cons, ih]

theorem rowsCellCount_perm {l1 l2 : List Row} (h : l1.Perm l2) (key ck : String)
    (ts : Int) (v : Bytes) :
    rowsCellCount l1 key ck ts v = rowsCellCount l2 key ck ts v := by
  rw [rowsCellCount_eq_sum, rowsCellCount_eq_sum]
  exact (h.map (fun r => if r.key = key then r.cellCount ck ts v else 0)).sum_eq

theorem exists_key_perm {l1 l2 : List Row} (h : l1.Perm l2) (key : String) :
    (∃ x ∈ l1, x.key = key) ↔ (∃ x ∈ l2, x.key = key) := by
  constructor
  · rintro ⟨x, hx, hk⟩
    exact ⟨x, h.mem_iff.mp hx, hk⟩
  · rintro ⟨x, hx, hk⟩
    exact ⟨x, h.mem_iff.mpr hx, hk⟩

/-
Claim C7: the partition fold.
-/

theorem split_fold (sk : String) (now : Int) (rows : List Row) :
    ∀ l r : Tablet,
    (∀ x ∈ rows, ∀ p ∈ x.columns, p.1 = colKey p.2.family p.2.qualifier) →
    noZeroTs rows →
    (∀ x ∈ rows, keyLt x.key sk = true → l.inRange x.key = true) →
    (∀ x ∈ rows, keyLt x.key sk = false → r.inRange x.key = true) →
    ((rows.foldl (fun (lr : Tablet × Tablet) row =>
        if keyLt row.key sk then (childMutate lr.1 (rowToMutation row) now, lr.2)
        else (lr.1, childMutate lr.2 (rowToMutation row) now)) (l, r)).1.startKey
      = l.startKey) ∧
    ((rows.foldl (fun (lr : Tablet × Tablet) row =>
        if keyLt row.key sk then (childMutate lr.1 (rowToMutation row) now, lr.2)
        else (lr.1, childMutate lr.2 (rowToMutation row) now)) (l, r)).1.endKey
      = l.endKey) ∧
    ((rows.foldl (fun (lr : Tablet × Tablet) row =>
        if keyLt row.key sk then (childMutate lr.1 (rowToMutation row) now, lr.2)
        else (lr.1, childMutate lr.2 (rowToMutation row) now)) (l, r)).2.startKey
      = r.startKey) ∧
    ((rows.foldl (fun (lr : Tablet × Tablet) row =>
        if keyLt row.key sk then (childMutate lr.1 (rowToMutation row) now, lr.2)
        else (lr.1, childMutate lr.2 (rowToMutation row) now)) (l, r)).2.endKey
      = r.endKey) ∧
    (∀ key, key ∈ ((rows.foldl (fun (lr : Tablet × Tablet) row =>
        if keyLt row.key sk then (childMutate lr.1 (rowToMutation row) now, lr.2)
        else (lr.1, childMutate lr.2 (rowToMutation row) now)) (l, r)).1.mem.rows.map
          Row.key) ↔
      key ∈ l.mem.rows.map Row.key ∨
        (keyLt key sk = true ∧ ∃ x ∈ rows, x.key = key)) ∧
    (∀ key, key ∈ ((rows.foldl (fun (lr : Tablet × Tablet) row =>
        if keyLt row.key sk then (childMutate lr.1 (rowToMutation row) now, lr.2)
        else (lr.1, childMutate lr.2 (rowToMutation row) now)) (l, r)).2.mem.rows.map
          Row.key) ↔
      key ∈ r.mem.rows.map Row.key ∨
        (keyLt key sk = false ∧ ∃ x ∈ rows, x.key = key)) ∧
    (∀ (key ck : String) (ts : Int) (v : Bytes),
      rowsCellCount ((rows.foldl (fun (lr : Tablet × Tablet) row =>
          if keyLt row.key sk then (childMutate lr.1 (rowToMutation row) now, lr.2)
          else (lr.1, childMutate lr.2 (rowToMutation row) now)) (l, r)).1.mem.rows)
          key ck ts v
        + rowsCellCount ((rows.foldl (fun (lr : Tablet × Tablet) row =>
            if keyLt row.key sk then (childMutate lr.1 (rowToMutation row) now, lr.2)
            else (lr.1, childMutate lr.2 (rowToMutation row) now)) (l, r)).2.mem.rows)
            key ck ts v
      = rowsCellCount l.mem.rows key ck ts v + rowsCellCount r.mem.rows key ck ts v
        + rowsCellCount rows key ck ts v) := by
  induction rows with
  | nil =>
    intro l r _ _ _ _
    refine ⟨rfl, rfl, rfl, rfl, fun key => ?_, fun key => ?_, fun key ck ts v => ?_⟩
    · simp
    · simp
    · have h0 : rowsCellCount [] key ck ts v = 0 := rfl
      rw [List.foldl_nil, h0]
      show rowsCellCount l.mem.rows key ck ts v + rowsCellCount r.mem.rows key ck ts v
        = rowsCellCount l.mem.rows key ck ts v + rowsCellCount r.mem.rows key ck ts v + 0
      omega
  | cons x rest ih =>
    intro l r hwfc hnz hinL hinR
    have hwx : ∀ p ∈ x.columns, p.1 = colKey p.2.family p.2.qualifier :=
      hwfc x (List.mem_cons_self x rest)
    have hnx : ∀ p ∈ x.columns, ∀ ver ∈ p.2.versions, ver.timestamp ≠ 0 :=
      hnz x (List.mem_cons_self x rest)
    have hwr : ∀ y ∈ rest, ∀ p ∈ y.columns, p.1 = colKey p.2.family p.2.qualifier :=
      fun y hy => hwfc y (List.mem_cons_of_mem _ hy)
    have hnr : noZeroTs rest := fun y hy => hnz y (List.mem_cons_of_mem _ hy)
    have hrkey : (rowToMutation x).rowKey = x.key := rfl
    by_cases hx : keyLt x.key sk = true
    · have hstep : (x :: rest).foldl (fun (lr : Tablet × Tablet) row =>
          if keyLt row.key sk then (childMutate lr.1 (rowToMutation row) now, lr.2)
          else (lr.1, childMutate lr.2 (rowToMutation row) now)) (l, r)
          = rest.foldl (fun (lr : Tablet × Tablet) row =>
            if keyLt row.key sk then (childMutate lr.1 (rowToMutation row) now, lr.2)
            else (lr.1, childMutate lr.2 (rowToMutation row) now))
            (childMutate l (rowToMutation x) now, r) := by
        rw [List.foldl_cons, if_pos hx]
      have hfields := childMutate_fields l (rowToMutation x) now
      have hinx : l.inRange (rowToMutation x).rowKey = true := by
        rw [hrkey]
        exact hinL x (List.mem_cons_self x rest) hx
      have hrows := childMutate_rows l (rowToMutation x) now hinx
      have hinL2 : ∀ y ∈ rest, keyLt y.key sk = true →
          (childMutate l (rowToMutation x) now).inRange y.key = true := by
        intro y hy hky
        rw [inRange_congr _ l hfields.1 hfields.2.1]
        exact hinL y (List.mem_cons_of_mem _ hy) hky
      have hih := ih (childMutate l (rowToMutation x) now) r hwr hnr hinL2
        (fun y hy hky => hinR y (List.mem_cons_of_mem _ hy) hky)
      rw [hstep]
      refine ⟨by rw [hih.1, hfields.1], by rw [hih.2.1, hfields.2.1],
        hih.2.2.1, hih.2.2.2.1, fun key => ?_, fun key => ?_, fun key ck ts v => ?_⟩
      · rw [hih.2.2.2.2.1 key, hrows,
          applyToRows_keys (rowToMutation x) l.mem.rows now key, hrkey]
        constructor
        · rintro ((h | h) | h)
          · exact Or.inl h
          · exact Or.inr ⟨by rw [← h]; exact hx, ⟨x, List.mem_cons_self x rest, h⟩⟩
          · exact Or.inr ⟨h.1, by
              rcases h.2 with ⟨y, hy, hyk⟩
              exact ⟨y, List.mem_cons_of_mem _ hy, hyk⟩⟩
        · rintro (h | ⟨hks, y, hy, hyk⟩)
          · exact Or.inl (Or.inl h)
          · rcases List.mem_cons.mp hy with hyx | hyr
            · exact Or.inl (Or.inr (by rw [← hyk, hyx]))
            · exact Or.inr ⟨hks, y, hyr, hyk⟩
      · rw [hih.2.2.2.2.2.1 key]
        constructor
        · rintro (h | ⟨hks, y, hy, hyk⟩)
          · exact Or.inl h
          · exact Or.inr ⟨hks, y, List.mem_cons_of_mem _ hy, hyk⟩
        · rintro (h | ⟨hks, y, hy, hyk⟩)
          · exact Or.inl h
          · rcases List.mem_cons.mp hy with hyx | hyr
            · exfalso
              rw [← hyk, hyx, hx] at hks
              exact Bool.true_eq_false.mp hks
            · exact Or.inr ⟨hks, y, hyr, hyk⟩
      · rw [hih.2.2.2.2.2.2 key ck ts v, hrows,
          rowsCellCount_applyToRows (rowToMutation x) (rowToMutation_ops_set x)
            l.mem.rows now ts key ck v, hrkey, rowsCellCount_cons]
        by_cases hk : x.key = key
        · rw [if_pos hk, if_pos hk,
            opsCount_rowToMutation x hwx hnx ck ts v now]
          omega
        · rw [if_neg hk, if_neg hk]
          omega
    · have hxf : keyLt x.key sk = false := Bool.eq_false_iff.mpr hx
      have hstep : (x :: rest).foldl (fun (lr : Tablet × Tablet) row =>
          if keyLt row.key sk then (childMutate lr.1 (rowToMutation row) now, lr.2)
          else (lr.1, childMutate lr.2 (rowToMutation row) now)) (l, r)
          = rest.foldl (fun (lr : Tablet × Tablet) row =>
            if keyLt row.key sk then (childMutate lr.1 (rowToMutation row) now, lr.2)
            else (lr.1, childMutate lr.2 (rowToMutation row) now))
            (l, childMutate r (rowToMutation x) now) := by
        rw [List.foldl_cons, if_neg hx]
      have hfields := childMutate_fields r (rowToMutation x) now
      have hinx : r.inRange (rowToMutation x).rowKey = true := by
        rw [hrkey]
        exact hinR x (List.mem_cons_self x rest) hxf
      have hrows := childMutate_rows r (rowToMutation x) now hinx
      have hinR2 : ∀ y ∈ rest, keyLt y.key sk = false →
          (childMutate r (rowToMutation x) now).inRange y.key = true := by
        intro y hy hky
        rw [inRange_congr _ r hfields.1 hfields.2.1]
        exact hinR y (List.mem_cons_of_mem _ hy) hky
      have hih := ih l (childMutate r (rowToMutation x) now) hwr hnr
        (fun y hy hky => hinL y (List.mem_cons_of_mem _ hy) hky) hinR2
      rw [hstep]
      refine ⟨hih.1, hih.2.1, by rw [hih.2.2.1, hfields.1],
        by rw [hih.2.2.2.1, hfields.2.1], fun key => ?_, fun key => ?_,
        fun key ck ts v => ?_⟩
      · rw [hih.2.2.2.2.1 key]
        constructor
        · rintro (h | ⟨hks, y, hy, hyk⟩)
          · exact Or.inl h
          · exact Or.inr ⟨hks, y, List.mem_cons_of_mem _ hy, hyk⟩
        · rintro (h | ⟨hks, y, hy, hyk⟩)
          · exact Or.inl h
          · rcases List.mem_cons.mp hy with hyx | hyr
            · exfalso
              rw [← hyk, hyx, hxf] at hks
              exact Bool.false_eq_true.mp hks
            · exact Or.inr ⟨hks, y, hyr, hyk⟩
      · rw [hih.2.2.2.2.2.1 key, hrows,
          applyToRows_keys (rowToMutation x) r.mem.rows now key, hrkey]
        constructor
        · rintro ((h | h) | h)
          · exact Or.inl h
          · exact Or.inr ⟨by rw [← h]; exact hxf, ⟨x, List.mem_cons_self x rest, h⟩⟩
          · exact Or.inr ⟨h.1, by
              rcases h.2 with ⟨y, hy, hyk⟩
              exact ⟨y, List.mem_cons_of_mem _ hy, hyk⟩⟩
        · rintro (h | ⟨hks, y, hy, hyk⟩)
          · exact Or.inl (Or.inl h)
          · rcases List.mem_cons.mp hy with hyx | hyr
            · exact Or.inl (Or.inr (by rw [← hyk, hyx]))
            · exact Or.inr ⟨hks, y, hyr, hyk⟩
      · rw [hih.2.2.2.2.2.2 key ck ts v, hrows,
          rowsCellCount_applyToRows (rowToMutation x) (rowToMutation_ops_set x)
            r.mem.rows now ts key ck v, hrkey, rowsCellCount_cons]
        by_cases hk : x.key = key
        · rw [if_pos hk, if_pos hk,
            opsCount_rowToMutation x hwx hnx ck ts v now]
          omega
        · rw [if_neg hk, if_neg hk]
          omega

/-
Claim C7: assembly.
-/

/-- Claim C7: a successful split chooses the median key of the
key-sorted record list read after the pre-split flush, gives the left
child the range from the parent's start key to the split key and the
right child the range from the split key to the parent's end key,
places exactly the keys below the split key in the left child and the
others in the right child, and preserves the multiset of cells: for
every cell address and version, the two children together hold exactly
the parent's pre-split occurrences.  Hypotheses: the threshold passes,
at least two row records exist, all records lie in the parent's range
with column entries keyed by family:qualifier, and no stored timestamp
is zero. -/
theorem c7_split_partitions_content (t : Tablet) (th now : Int)
    (hth : ¬ t.mem.sizeBytes < th)
    (hlen : ¬ t.allRows.length < 2)
    (hrange : ∀ x ∈ t.allRows, t.inRange x.key = true)
    (hwfc : ∀ x ∈ t.allRows, ∀ p ∈ x.columns, p.1 = colKey p.2.family p.2.qualifier)
    (hnz : noZeroTs t.allRows) :
    match t.split th now with
    | .error _ => False
    | .ok (l, r) =>
      l.startKey = t.startKey ∧ l.endKey = t.splitKey ∧
      r.startKey = t.splitKey ∧ r.endKey = t.endKey ∧
      (∀ key, hasKey l.mem.rows key ↔
        (keyLt key t.splitKey = true ∧ ∃ x ∈ t.allRows, x.key = key)) ∧
      (∀ key, hasKey r.mem.rows key ↔
        (keyLt key t.splitKey = false ∧ ∃ x ∈ t.allRows, x.key = key)) ∧
      (∀ (key ck : String) (ts : Int) (v : Bytes),
        rowsCellCount l.mem.rows key ck ts v + rowsCellCount r.mem.rows key ck ts v
          = rowsCellCount t.allRows key ck ts v) := by
  have hgetd : ((t.mem.flush none).file.getD []) = t.mem.rows := by
    simp [MemTable.flush, writeRows_none]
  have hall : rowsOfTables (t.sstables ++ [⟨(t.mem.flush none).file.getD []⟩])
      = t.allRows := by
    rw [hgetd, rowsOfTables_append_one]
    rfl
  have heq : t.split th now
      = .ok ((sortRowsByKey t.allRows).foldl (fun (lr : Tablet × Tablet) row =>
          if keyLt row.key t.splitKey then (childMutate lr.1 (rowToMutation row) now, lr.2)
          else (lr.1, childMutate lr.2 (rowToMutation row) now))
          (Tablet.new t.startKey t.splitKey, Tablet.new t.splitKey t.endKey)) := by
    unfold Tablet.split
    rw [if_neg hth]
    simp only [hall]
    rw [if_neg hlen]
    rfl
  rw [heq]
  have hperm := sortRowsByKey_perm t.allRows
  have hwfc2 : ∀ x ∈ sortRowsByKey t.allRows, ∀ p ∈ x.columns,
      p.1 = colKey p.2.family p.2.qualifier :=
    fun x hx => hwfc x (hperm.mem_iff.mp hx)
  have hnz2 : noZeroTs (sortRowsByKey t.allRows) :=
    fun x hx => hnz x (hperm.mem_iff.mp hx)
  have hinL : ∀ x ∈ sortRowsByKey t.allRows, keyLt x.key t.splitKey = true →
      (Tablet.new t.startKey t.splitKey).inRange x.key = true := by
    intro x hx hk
    have hr := hrange x (hperm.mem_iff.mp hx)
    simp only [Tablet.inRange, Tablet.new, Bool.and_eq_true, Bool.not_eq_true',
      Bool.or_eq_true] at hr ⊢
    exact ⟨hr.1, Or.inr hk⟩
  have hinR : ∀ x ∈ sortRowsByKey t.allRows, keyLt x.key t.splitKey = false →
      (Tablet.new t.splitKey t.endKey).inRange x.key = true := by
    intro x hx hk
    have hr := hrange x (hperm.mem_iff.mp hx)
    simp only [Tablet.inRange, Tablet.new, Bool.and_eq_true, Bool.not_eq_true',
      Bool.or_eq_true] at hr ⊢
    exact ⟨hk, hr.2⟩
  have hsf := split_fold t.splitKey now (sortRowsByKey t.allRows)
    (Tablet.new t.startKey t.splitKey) (Tablet.new t.splitKey t.endKey)
    hwfc2 hnz2 hinL hinR
  refine ⟨hsf.1, hsf.2.1, hsf.2.2.1, hsf.2.2.2.1,
    fun key => ?_, fun key => ?_, fun key ck ts v => ?_⟩
  · rw [hasKey_iff_mem_map, hsf.2.2.2.2.1 key]
    have hbase : key ∈ (Tablet.new t.startKey t.splitKey).mem.rows.map Row.key ↔ False := by
      simp [Tablet.new, MemTable.empty]
    rw [hbase, false_or, exists_key_perm hperm key]
  · rw [hasKey_iff_mem_map, hsf.2.2.2.2.2.1 key]
    have hbase : key ∈ (Tablet.new t.splitKey t.endKey).mem.rows.map Row.key ↔ False := by
      simp [Tablet.new, MemTable.empty]
    rw [hbase, false_or, exists_key_perm hperm key]
  · rw [hsf.2.2.2.2.2.2 key ck ts v,
      rowsCellCount_perm hperm key ck ts v]
    have hbase : rowsCellCount (Tablet.new t.startKey t.splitKey).mem.rows key ck ts v
        = 0 := rfl
    have hbase2 : rowsCellCount (Tablet.new t.splitKey t.endKey).mem.rows key ck ts v
        = 0 := rfl
    rw [hbase, hbase2]
    omega

/-- Witness for C7 at a concrete two-row tablet over the full key
space: the split key is b, the left child holds key a, the right child
holds key b, and the cell counts add up. -/
theorem c7_witness :
    match tabAB.split 1 99 with
    | .error _ => False
    | .ok (l, r) =>
      l.startKey = tabAB.startKey ∧ l.endKey = tabAB.splitKey ∧
      r.startKey = tabAB.splitKey ∧ r.endKey = tabAB.endKey ∧
      (∀ key, hasKey l.mem.rows key ↔
        (keyLt key tabAB.splitKey = true ∧ ∃ x ∈ tabAB.allRows, x.key = key)) ∧
      (∀ key, hasKey r.mem.rows key ↔
        (keyLt key tabAB.splitKey = false ∧ ∃ x ∈ tabAB.allRows, x.key = key)) ∧
      (∀ (key ck : String) (ts : Int) (v : Bytes),
        rowsCellCount l.mem.rows key ck ts v + rowsCellCount r.mem.rows key ck ts v
          = rowsCellCount tabAB.allRows key ck ts v) :=
  c7_split_partitions_content tabAB 1 99 (by decide) (by decide) (by decide)
    (by decide) (by decide)

/-
Claim C5: MemTable.Flush.
-/

/-- Claim C5 evaluated at its failing input: a successful flush of a
two-row memtable with size estimate 42 clears the rows but leaves
sizeBytes at 42 instead of resetting it to zero, and a flush whose
second record write fails leaves the memtable unchanged but also leaves
the partial one-record file on disk instead of discarding it. -/
theorem c5_flush_eval :
    (mtTwo.flush none).ok = true ∧
    (mtTwo.flush none).mem.rows = [] ∧
    (mtTwo.flush none).mem.sizeBytes = 42 ∧
    (mtTwo.flush none).file = some [rowA, rowK65] ∧
    (mtTwo.flush (some 1)).ok = false ∧
    (mtTwo.flush (some 1)).mem = mtTwo ∧
    (mtTwo.flush (some 1)).file = some [rowA] := by decide

end BigTable
